import Mathlib

/-!
Verification development for the change-tracking / suggestion engine of a
collaborative rich-text editor (TipTap/ProseMirror based).

The definitions below are a shallow embedding of the TypeScript sources:
  * `suggestion-mode.ts` — change extraction, merging, position mapping,
    the debounce-session plugin, and the suggestion materializer;
  * `suggestion.ts` — `acceptSuggestion` / `rejectSuggestion` commands on
    inline suggestion marks;
  * `node-suggestion.ts` — `acceptNodeSuggestion` / `rejectNodeSuggestion`
    commands on block-level node suggestions.

The document tree's own editing primitives (ProseMirror `Node`, `Step`,
`StepMap`, `Transaction`) are external collaborators of the subsystem; they
are modelled here at their interface boundary: `PMNode` is an ordered tree
of block nodes and marked text leaves with ProseMirror's position
arithmetic (a non-leaf node occupies `2 + content size` positions), and the
range primitives used by the subsystem (`textBetween`, `nodesBetween`
traversals, `nodeAt`, `delete`, `removeMark`, `setNodeMarkup`, `StepMap.map`)
are implemented with their documented ProseMirror semantics on the ranges
the subsystem exercises.

Machine integers are modelled as `Nat`/`Int`; JSON values as the inductive
`JVal` with an executable stringifier and parser standing in for the
platform `JSON.stringify` / `JSON.parse`.
-/

namespace Spec2Proof

/-! ## JSON values (model of the platform JSON primitives) -/

/-- JSON value: null, boolean, integer number, string, array or object.
Attribute records of the editor are JSON objects, so the same type doubles
as the attribute-value type of nodes and marks. -/
inductive JVal where
  | null : JVal
  | bool (b : Bool) : JVal
  | num (n : Int) : JVal
  | str (s : String) : JVal
  | arr (xs : List JVal) : JVal
  | obj (fields : List (String × JVal)) : JVal

/-- Attribute record of a node or mark: ordered association list, as the
enumeration order of a JS object's own keys. -/
abbrev Attrs := List (String × JVal)

mutual

/-- Structural equality of JSON values (model of JS `===` on the primitive
attribute values compared by the subsystem). -/
def JVal.beq : JVal → JVal → Bool
  | .null, .null => true
  | .bool a, .bool b => a == b
  | .num a, .num b => a == b
  | .str a, .str b => a == b
  | .arr a, .arr b => JVal.beqList a b
  | .obj a, .obj b => JVal.beqFields a b
  | _, _ => false

/-- Elementwise equality of JSON arrays. -/
def JVal.beqList : List JVal → List JVal → Bool
  | [], [] => true
  | a :: as, b :: bs => JVal.beq a b && JVal.beqList as bs
  | _, _ => false

/-- Fieldwise equality of JSON objects (order-sensitive, as
`JSON.stringify` comparison is). -/
def JVal.beqFields : List (String × JVal) → List (String × JVal) → Bool
  | [], [] => true
  | (k, v) :: as, (k2, v2) :: bs => k == k2 && JVal.beq v v2 && JVal.beqFields as bs
  | _, _ => false

end

instance : BEq JVal := ⟨JVal.beq⟩

/-- Serialise a string as a JSON string literal (escaping quotes and
backslashes; the attribute values of this subsystem contain no control
characters). -/
def jsonQuote (s : String) : String :=
  "\"" ++ String.join (s.data.map (fun c =>
    if c = '"' then "\\" ++ "\"" else
    if c = '\\' then "\\" ++ "\\" else
    String.singleton c)) ++ "\""

mutual

/-- Model of `JSON.stringify` on `JVal`. -/
def jsonStringify : JVal → String
  | .null => "null"
  | .bool b => if b then "true" else "false"
  | .num n => toString n
  | .str s => jsonQuote s
  | .arr xs => "[" ++ jsonStringifyList xs ++ "]"
  | .obj fs => "\x7b" ++ jsonStringifyFields fs ++ "\x7d"

/-- Comma-separated serialisation of array elements. -/
def jsonStringifyList : List JVal → String
  | [] => ""
  | [x] => jsonStringify x
  | x :: rest => jsonStringify x ++ "," ++ jsonStringifyList rest

/-- Comma-separated serialisation of object fields. -/
def jsonStringifyFields : List (String × JVal) → String
  | [] => ""
  | [(k, v)] => jsonQuote k ++ ":" ++ jsonStringify v
  | (k, v) :: rest => jsonQuote k ++ ":" ++ jsonStringify v ++ "," ++ jsonStringifyFields rest

end

/-! ## Change records

Tagged union `DocChange` from `suggestion-mode.ts`: `InsertChange`,
`DeleteChange`, `ReplaceChange`, `FormatChange`, `NodeFormatChange`. -/

/-- Mark of a text node, serialised: `{type, attrs}`
(`OldTextNode.marks` element shape in the source). -/
structure MarkData where
  ty : String
  attrs : Attrs
deriving BEq

/-- Serialised text node with its marks (`OldTextNode` in the source):
captured old content of a `format` change, suggestion marks excluded. -/
structure OldTextNode where
  text : String
  marks : List MarkData
deriving BEq

/-- Semantic change record (`DocChange` union in `suggestion-mode.ts`). -/
inductive DocChange where
  /-- `InsertChange {from, to, text}` -/
  | insert (src dst : Nat) (text : String) : DocChange
  /-- `DeleteChange {from, to, text}` (from = to = anchor). -/
  | delete (src dst : Nat) (text : String) : DocChange
  /-- `ReplaceChange {from, insertFrom, insertTo, oldText, newText}` -/
  | replace (src insertFrom insertTo : Nat) (oldText newText : String) : DocChange
  /-- `FormatChange {from, to, text, description, oldNodes}` -/
  | format (src dst : Nat) (text description : String) (oldNodes : List OldTextNode) : DocChange
  /-- `NodeFormatChange {pos, description, oldNodeType, oldNodeAttrs}` -/
  | nodeFormat (pos : Nat) (description : String) (oldNodeType : String) (oldNodeAttrs : Attrs) : DocChange
deriving BEq

/-! ## Position mapping

`StepMap` and `Mapping` are ProseMirror collaborators; the non-inverted
`StepMap.map` algorithm is reproduced from `prosemirror-transform`:
a step map is a list of `(start, oldSize, newSize)` ranges. -/

/-- ProseMirror `StepMap`: replaced ranges `(start, oldSize, newSize)`
in ascending order of `start`. -/
structure StepMap where
  ranges : List (Nat × Nat × Nat)
deriving BEq, DecidableEq

/-- Core of `StepMap.map` (non-inverted): walk the ranges accumulating the
size difference `diff`; a position inside a replaced range resolves by the
bias `assoc`. -/
def StepMap.mapAux : List (Nat × Nat × Nat) → Int → Nat → Int → Int
  | [], diff, pos, _ => (pos : Int) + diff
  | (start, oldSize, newSize) :: rest, diff, pos, assoc =>
    if start > pos then (pos : Int) + diff
    else
      let stop := start + oldSize
      if pos ≤ stop then
        let side : Int := if oldSize = 0 then assoc
          else if pos = start then -1
          else if pos = stop then 1
          else assoc
        (start : Int) + diff + (if side < 0 then 0 else (newSize : Int))
      else StepMap.mapAux rest (diff + (newSize : Int) - (oldSize : Int)) pos assoc

/-- `StepMap.map(pos, assoc)`. Document positions are non-negative, so the
result is clamped back into `Nat` at the interface boundary. -/
def StepMap.map (m : StepMap) (pos : Nat) (assoc : Int) : Nat :=
  (StepMap.mapAux m.ranges 0 pos assoc).toNat

/-- ProseMirror `StepMap.forEach`: the `(oldStart, oldEnd, newStart, newEnd)`
quadruples of the replaced ranges, with the accumulated size difference
applied to the new-side coordinates. -/
def StepMap.quads (m : StepMap) : List (Nat × Nat × Nat × Nat) :=
  go m.ranges 0
where
  /-- Walk the ranges producing the forEach quadruples; the running size
  difference is an integer (deletions make it negative). -/
  go : List (Nat × Nat × Nat) → Int → List (Nat × Nat × Nat × Nat)
    | [], _ => []
    | (start, oldSize, newSize) :: rest, diff =>
      (start, start + oldSize, ((start : Int) + diff).toNat, ((start : Int) + diff).toNat + newSize)
        :: go rest (diff + (newSize : Int) - (oldSize : Int))

/-- ProseMirror `Mapping`: a pipeline of step maps, applied in order. -/
structure Mapping where
  maps : List StepMap
deriving BEq, DecidableEq

/-- `Mapping.map(pos, assoc)`: thread the position through every step map. -/
def Mapping.map (m : Mapping) (pos : Nat) (assoc : Int) : Nat :=
  m.maps.foldl (fun p sm => sm.map p assoc) pos

/-- `mapDocChange` from `suggestion-mode.ts`: remap one change record
through a mapping. Start positions map with insertion bias `1`, end
positions with bias `-1`; a `delete` record maps its single anchor with
insertion bias and keeps `from = to`. -/
def mapDocChange (change : DocChange) (mapping : Mapping) : DocChange :=
  match change with
  | .insert f t text => .insert (mapping.map f 1) (mapping.map t (-1)) text
  | .replace f inF inT oldT newT =>
      .replace (mapping.map f 1) (mapping.map inF 1) (mapping.map inT (-1)) oldT newT
  | .format f t text desc olds => .format (mapping.map f 1) (mapping.map t (-1)) text desc olds
  | .nodeFormat pos desc oty oattrs => .nodeFormat (mapping.map pos 1) desc oty oattrs
  | .delete f _ text =>
      let mappedPos := mapping.map f 1
      .delete mappedPos mappedPos text

/-! ## Change merger

`mergeDocChanges` from `suggestion-mode.ts`. The source mutates the last
element of the output array in place; here the output is accumulated in
reverse (most recent record first) and reversed at the end. -/

/-- Try to merge the incoming record `next` into the immediately preceding
record `prev`; `some` is the extended record, `none` means the records are
independent. The five rules of the source, in order: adjacent inserts,
insert continuing a replacement, deletes converging on one anchor, formats
on an identical range, node formats on the same node. -/
def mergeOne (prev next : DocChange) : Option DocChange :=
  match prev, next with
  | .insert f t text, .insert f2 t2 text2 =>
      if t = f2 then some (.insert f t2 (text ++ text2)) else none
  | .replace f inF inT oldT newT, .insert f2 t2 text2 =>
      if inT = f2 then some (.replace f inF t2 oldT (newT ++ text2)) else none
  | .delete f t text, .delete f2 _ text2 =>
      if f = f2 then some (.delete f t (text2 ++ text)) else none
  | .format f t text d olds, .format f2 t2 _ d2 _ =>
      if f = f2 ∧ t = t2 then some (.format f t text (d ++ ", " ++ d2) olds) else none
  | .nodeFormat p d oty oattrs, .nodeFormat p2 d2 _ _ =>
      if p = p2 then some (.nodeFormat p (d ++ ", " ++ d2) oty oattrs) else none
  | _, _ => none

/-- One iteration of the merge loop, with the accumulator kept in reverse
order (head = most recently appended record). -/
def mergeStep (acc : List DocChange) (change : DocChange) : List DocChange :=
  match acc with
  | [] => [change]
  | prev :: rest =>
    match mergeOne prev change with
    | some merged => merged :: rest
    | none => change :: prev :: rest

/-- `mergeDocChanges`: coalesce adjacent / overlapping records, each record
compared against the immediately preceding output record only. -/
def mergeDocChanges (changes : List DocChange) : List DocChange :=
  (changes.foldl mergeStep []).reverse


/-! ## Document tree

Model of the ProseMirror document at the subsystem's interface boundary:
block nodes with a type name, attributes and ordered children, and leaf
text nodes carrying a string and a set of marks. A text node occupies as
many positions as it has characters; a block node occupies
`2 + content size` positions (its opening and closing tokens). -/

/-- Document tree node. -/
inductive PMNode where
  | text (s : String) (marks : List MarkData)
  | block (ty : String) (attrs : Attrs) (children : List PMNode)

mutual

/-- `node.nodeSize`: character count for text, `2 + content size` for
block nodes. -/
def PMNode.nodeSize : PMNode → Nat
  | .text s _ => s.length
  | .block _ _ cs => 2 + PMNode.sizeF cs

/-- Total size of a fragment (ordered list of sibling nodes). -/
def PMNode.sizeF : List PMNode → Nat
  | [] => 0
  | c :: rest => c.nodeSize + PMNode.sizeF rest

end

/-- `node.type.name`: `"text"` for text nodes. -/
def PMNode.typeName : PMNode → String
  | .text _ _ => "text"
  | .block ty _ _ => ty

/-- `node.attrs` (text nodes carry no attributes). -/
def PMNode.attrsOf : PMNode → Attrs
  | .text _ _ => []
  | .block _ a _ => a

/-- Attribute lookup, `attrs.k` giving `none` for an absent key
(JS `undefined`). -/
def attrLookup (attrs : Attrs) (k : String) : Option JVal :=
  (attrs.find? (fun kv => kv.1 == k)).map (fun kv => kv.2)

/-- JS truthiness of a JSON value. -/
def truthyJ : JVal → Bool
  | .null => false
  | .bool b => b
  | .num n => n != 0
  | .str s => s.length != 0
  | .arr _ => true
  | .obj _ => true

/-- JS truthiness of a possibly-absent attribute value (`undefined` is
falsy). -/
def truthyA : Option JVal → Bool
  | none => false
  | some v => truthyJ v

/-- JS `===` between two possibly-absent attribute values. -/
def attrValEq : Option JVal → Option JVal → Bool
  | none, none => true
  | some a, some b => JVal.beq a b
  | _, _ => false

/-- JS string coercion of an attribute value, as used in template
interpolation (objects and arrays are rendered via the JSON model). -/
def jsShow : JVal → String
  | .null => "null"
  | .bool b => if b then "true" else "false"
  | .num n => toString n
  | .str s => s
  | v => jsonStringify v

/-- Substring of `s` from character `a` (inclusive) to `b` (exclusive),
JS `String.prototype.slice` on in-range indices. -/
def strSlice (s : String) (a b : Nat) : String :=
  ⟨(s.data.drop a).take (b - a)⟩

mutual

/-- ProseMirror `Node.eq`: structural equality of documents. -/
def pmEq : PMNode → PMNode → Bool
  | .text s m, .text s2 m2 => s == s2 && m == m2
  | .block ty a cs, .block ty2 a2 cs2 => ty == ty2 && a == a2 && pmEqF cs cs2
  | _, _ => false

/-- Structural equality of fragments. -/
def pmEqF : List PMNode → List PMNode → Bool
  | [], [] => true
  | c :: rest, c2 :: rest2 => pmEq c c2 && pmEqF rest rest2
  | _, _ => false

end

/-- Node types whose content is inline text (`node.isTextblock`); the
schema of this editor marks paragraphs and headings as textblocks. -/
def TEXTBLOCK_TYPES : List String := ["paragraph", "heading"]

mutual

/-- Traversal core of ProseMirror `textBetween(from, to, blockSeparator)`:
walk the fragment starting at absolute position `pos`, concatenating the
in-range characters of text nodes and inserting the separator before every
textblock after the first; the running `first` flag is threaded through. -/
def textBetweenF : List PMNode → Nat → Nat → String → Nat → Bool → String × Bool
  | [], _, _, _, _, first => ("", first)
  | c :: rest, f, t, sep, pos, first =>
    if pos < t then
      let stop := pos + c.nodeSize
      if stop > f then
        let (piece, first2) := textBetweenN c f t sep pos first
        let (restS, first3) := textBetweenF rest f t sep stop first2
        (piece ++ restS, first3)
      else textBetweenF rest f t sep stop first
    else ("", first)

/-- Contribution of one visited node to `textBetween`: the in-range slice
of a text node, or the separator (for a textblock after the first)
followed by the node's visited content. -/
def textBetweenN : PMNode → Nat → Nat → String → Nat → Bool → String × Bool
  | .text s _, f, t, _, pos, first =>
    (strSlice s (max f pos - pos) (min (t - pos) s.length), first)
  | .block ty _ cs, f, t, sep, pos, first =>
    let (sepS, first2) :=
      if TEXTBLOCK_TYPES.contains ty then
        (if first then ("", false) else (sep, false))
      else ("", first)
    let (inner, first3) := textBetweenF cs f t sep (pos + 1) first2
    (sepS ++ inner, first3)

end

/-- `doc.textBetween(from, to, blockSeparator)`. -/
def PMNode.textBetween (doc : PMNode) (f t : Nat) (sep : String) : String :=
  match doc with
  | .text s _ => strSlice s f t
  | .block _ _ cs => (textBetweenF cs f t sep 0 true).1

mutual

/-- Fragment-level core of ProseMirror `Node.nodeAt`: descend to the node
starting at (or, for text, containing) the given position. -/
def nodeAtF : List PMNode → Nat → Option PMNode
  | [], _ => none
  | c :: rest, pos =>
    if pos = 0 then some c
    else if pos < c.nodeSize then nodeAtN c pos
    else nodeAtF rest (pos - c.nodeSize)

/-- Descend into one node strictly containing the position: a text node is
returned itself, a block node is searched one level down. -/
def nodeAtN : PMNode → Nat → Option PMNode
  | .text s m, _ => some (.text s m)
  | .block _ _ cs, pos => nodeAtF cs (pos - 1)

end

/-- `doc.nodeAt(pos)`. -/
def PMNode.nodeAt : PMNode → Nat → Option PMNode
  | .text _ _, _ => none
  | .block _ _ cs, pos => nodeAtF cs pos

mutual

/-- Fragment-level `tr.delete(from, to)` for the ranges this subsystem
produces (character ranges inside text content; block boundary tokens are
not deletable in this model). -/
def deleteF : List PMNode → Nat → Nat → List PMNode
  | [], _, _ => []
  | c :: rest, f, t =>
    let sz := c.nodeSize
    if t ≤ f then c :: rest
    else if sz ≤ f then c :: deleteF rest (f - sz) (t - sz)
    else deleteN c f t ++ deleteF rest (f - sz) (t - sz)

/-- Delete the in-range part of one node overlapping `[f, t)`
(`0 ≤ f < nodeSize`, `f < t`). An emptied text node disappears. -/
def deleteN : PMNode → Nat → Nat → List PMNode
  | .text s marks, f, t =>
    let kept : String := ⟨s.data.take f ++ s.data.drop t⟩
    if kept.length = 0 then [] else [.text kept marks]
  | .block ty a cs, f, t => [.block ty a (deleteF cs (f - 1) (t - 1))]

end

mutual

/-- Fragment-level `tr.removeMark(from, to, markType)`: remove every mark
of the given type from the text in the range, splitting partially covered
text nodes. -/
def removeMarkF : List PMNode → Nat → Nat → String → List PMNode
  | [], _, _, _ => []
  | c :: rest, f, t, mty =>
    let sz := c.nodeSize
    if t ≤ f then c :: rest
    else if sz ≤ f then c :: removeMarkF rest (f - sz) (t - sz) mty
    else removeMarkN c f t mty ++ removeMarkF rest (f - sz) (t - sz) mty

/-- Remove marks of the given type from the in-range part of one node. -/
def removeMarkN : PMNode → Nat → Nat → String → List PMNode
  | .text s marks, f, t, mty =>
    let b := min t s.length
    let pre : String := ⟨s.data.take f⟩
    let mid : String := ⟨(s.data.drop f).take (b - f)⟩
    let post : String := ⟨s.data.drop b⟩
    (if pre.length = 0 then [] else [.text pre marks])
      ++ (if mid.length = 0 then [] else [.text mid (marks.filter (fun m => m.ty != mty))])
      ++ (if post.length = 0 then [] else [.text post marks])
  | .block ty a cs, f, t, mty => [.block ty a (removeMarkF cs (f - 1) (t - 1) mty)]

end

/-- Apply `setNodeMarkup`'s type / attribute replacement to the targeted
block node itself (`none` keeps the current type); a text node target is
left unchanged (ProseMirror would reject that position). -/
def setNodeMarkupHead : PMNode → Option String → Attrs → PMNode
  | .block t0 _ cs, oty, newAttrs => .block (oty.getD t0) newAttrs cs
  | .text s m, _, _ => .text s m

mutual

/-- Fragment-level `tr.setNodeMarkup(pos, type, attrs)`: replace the type
(`none` keeps the current type) and attributes of the block node starting
at `pos`, keeping its children. -/
def setNodeMarkupF : List PMNode → Nat → Option String → Attrs → List PMNode
  | [], _, _, _ => []
  | c :: rest, pos, oty, newAttrs =>
    if pos = 0 then setNodeMarkupHead c oty newAttrs :: rest
    else if pos < c.nodeSize then setNodeMarkupN c pos oty newAttrs :: rest
    else c :: setNodeMarkupF rest (pos - c.nodeSize) oty newAttrs

/-- Descend into one node strictly containing the target position. -/
def setNodeMarkupN : PMNode → Nat → Option String → Attrs → PMNode
  | .text s m, _, _, _ => .text s m
  | .block t0 a0 cs, pos, oty, newAttrs => .block t0 a0 (setNodeMarkupF cs (pos - 1) oty newAttrs)

end

/-- `tr.delete(from, to)` at document level. -/
def PMNode.deleteRange : PMNode → Nat → Nat → PMNode
  | .block ty a cs, f, t => .block ty a (deleteF cs f t)
  | n, _, _ => n

/-- `tr.removeMark(from, to, markType)` at document level. -/
def PMNode.removeMarkRange : PMNode → Nat → Nat → String → PMNode
  | .block ty a cs, f, t, mty => .block ty a (removeMarkF cs f t mty)
  | n, _, _, _ => n

/-- `tr.setNodeMarkup(pos, type, attrs)` at document level. -/
def PMNode.setNodeMarkupAt : PMNode → Nat → Option String → Attrs → PMNode
  | .block ty a cs, pos, oty, newAttrs => .block ty a (setNodeMarkupF cs pos oty newAttrs)
  | n, _, _, _ => n
/-! ## Edit steps and transactions

A `Step` is the ProseMirror collaborator seen through the fields the
subsystem reads: its class (`AddMarkStep` / `RemoveMarkStep` /
`ReplaceStep`-or-`ReplaceAroundStep` / other), its `from` / `to` / `mark`,
its `getMap()`, and its `apply(doc)` — the latter an abstract function of
the external editing core, `none` modelling a failed replay
(`result.failed`). -/

/-- One atomic edit step. -/
inductive Step where
  /-- `AddMarkStep` -/
  | addMark (sfrom sto : Nat) (mark : MarkData) (applyFn : PMNode → Option PMNode)
  /-- `RemoveMarkStep` -/
  | removeMark (sfrom sto : Nat) (mark : MarkData) (applyFn : PMNode → Option PMNode)
  /-- `ReplaceStep` or `ReplaceAroundStep` (content replacement) -/
  | replaceStep (sfrom sto : Nat) (map : StepMap) (applyFn : PMNode → Option PMNode)
  /-- any other step kind -/
  | otherStep (applyFn : PMNode → Option PMNode)

/-- `step.getMap()`: mark steps and the unmodelled step kinds do not move
positions. -/
def Step.getMap : Step → StepMap
  | .replaceStep _ _ m _ => m
  | _ => StepMap.mk []

/-- `step.apply(doc)`. -/
def Step.applyTo : Step → PMNode → Option PMNode
  | .addMark _ _ _ g, doc => g doc
  | .removeMark _ _ _ g, doc => g doc
  | .replaceStep _ _ _ g, doc => g doc
  | .otherStep g, doc => g doc

/-- A dispatched transaction, as observed by the plugin: the document
before and after, the ordered steps, `tr.docChanged`, and the meta flags
the plugin reads (`y-sync$`/`yjs-update`, `suggestionMode`,
`suggestionThreadUpdate`). -/
structure Transaction where
  before : PMNode
  doc : PMNode
  steps : List Step
  docChanged : Bool
  metaRemote : Bool
  metaSuggestionMode : Bool
  metaSuggestionThreadUpdate : Bool

/-- `tr.mapping`: the composition of the steps' maps. -/
def Transaction.mapping (tr : Transaction) : Mapping :=
  Mapping.mk (tr.steps.map Step.getMap)

/-! ## Change extraction helpers (`suggestion-mode.ts`) -/

/-- `describeFormatStep`: human-readable label for a mark step. -/
def describeFormatStep (isAdd : Bool) (mark : MarkData) : String :=
  let pre := if isAdd then "" else "Remove "
  match mark.ty with
  | "bold" => pre ++ "Bold"
  | "italic" => pre ++ "Italic"
  | "underline" => pre ++ "Underline"
  | "strike" => pre ++ "Strikethrough"
  | "code" => pre ++ "Code"
  | "highlight" =>
    match attrLookup mark.attrs "color" with
    | some v => if truthyJ v then pre ++ "Highlight (" ++ jsShow v ++ ")" else pre ++ "Highlight"
    | none => pre ++ "Highlight"
  | "textStyle" =>
    let parts :=
      (if truthyA (attrLookup mark.attrs "fontFamily") then
        ["Font: " ++ jsShow ((attrLookup mark.attrs "fontFamily").getD .null)] else [])
      ++ (if truthyA (attrLookup mark.attrs "fontSize") then
        ["Size: " ++ jsShow ((attrLookup mark.attrs "fontSize").getD .null)] else [])
      ++ (if truthyA (attrLookup mark.attrs "color") then
        ["Color: " ++ jsShow ((attrLookup mark.attrs "color").getD .null)] else [])
    if parts.length = 0 then pre ++ "Text style"
    else pre ++ String.intercalate ", " parts
  | other => pre ++ other

mutual

/-- Traversal core of `captureOldTextNodes`: collect the in-range slices
of the text nodes in `[f, t)` with their marks, suggestion marks
excluded. -/
def captureF : List PMNode → Nat → Nat → Nat → List OldTextNode
  | [], _, _, _ => []
  | c :: rest, f, t, pos =>
    if pos < t then
      let stop := pos + c.nodeSize
      (if stop > f then captureN c f t pos else []) ++ captureF rest f t stop
    else []

/-- Contribution of one visited node to `captureOldTextNodes`. -/
def captureN : PMNode → Nat → Nat → Nat → List OldTextNode
  | .text s marks, f, t, pos =>
    if s.length != 0 then
      let slice := strSlice s (max pos f - pos) (min (pos + s.length) t - pos)
      let keptMarks := (marks.filter (fun m =>
        m.ty != "suggestionInsert" && m.ty != "suggestionDelete"))
      if slice.length > 0 then [OldTextNode.mk slice keptMarks] else []
    else []
  | .block _ _ cs, f, t, pos => captureF cs f t (pos + 1)

end

/-- `captureOldTextNodes(doc, from, to)`. -/
def captureOldTextNodes (doc : PMNode) (f t : Nat) : List OldTextNode :=
  match doc with
  | .text _ _ => []
  | .block _ _ cs => captureF cs f t 0

/-- `BLOCK_SUGGESTION_TYPES`: block node types allowed to carry suggestion
bookkeeping attributes. -/
def BLOCK_SUGGESTION_TYPES : List String :=
  ["paragraph", "heading", "bulletList", "orderedList", "taskList"]

/-- Keys destructured away by `stripSuggestionAttrs` (and by the
accept / reject commands). -/
def nodeSuggestionAttrKeys : List String :=
  ["nodeSuggestionId", "nodeSuggestionUserId", "nodeSuggestionCommentThreadId",
   "nodeSuggestionTimestamp", "nodeSuggestionOldData"]

/-- `stripSuggestionAttrs`: drop the bookkeeping keys, keeping the
remaining fields in order. -/
def stripSuggestionAttrs (attrs : Attrs) : Attrs :=
  attrs.filter (fun kv => !(nodeSuggestionAttrKeys.contains kv.1))

/-- `describeNodeFormatChange`: human-readable label for a block-level
node change. -/
def describeNodeFormatChange (oldType : String) (oldAttrs : Attrs)
    (newType : String) (newAttrs : Attrs) : String :=
  if newType == "heading" then
    "Heading " ++ (match attrLookup newAttrs "level" with
      | some .null => ""
      | some v => jsShow v
      | none => "")
  else if oldType == "heading" && newType == "paragraph" then "Normal text"
  else if newType == "bulletList" then "Bullet list"
  else if newType == "orderedList" then "Ordered list"
  else if newType == "taskList" then "Task list"
  else if oldType == "bulletList" || oldType == "orderedList" || oldType == "taskList" then
    "Normal text"
  else if oldType == newType then
    let alignNew := attrLookup newAttrs "textAlign"
    let parts :=
      (if truthyA alignNew && !(attrValEq alignNew (attrLookup oldAttrs "textAlign")) then
        let align := jsShow (alignNew.getD .null)
        ["Align: " ++ (strSlice align 0 1).toUpper ++ align.drop 1]
      else [])
      ++ (let lhNew := attrLookup newAttrs "lineHeight"
          if truthyA lhNew && !(attrValEq lhNew (attrLookup oldAttrs "lineHeight")) then
            ["Line height: " ++ jsShow (lhNew.getD .null)]
          else [])
    if parts.length > 0 then String.intercalate ", " parts else "Block format"
  else "Block format"

mutual

/-- Traversal core of `detectNodeFormatChanges`: `nodesBetween` over the
pre-state, stopping at allow-listed block nodes (one record per block,
no recursion into a visited block's children) and recursing through the
other node kinds. -/
def detectF (docAfter : PMNode) (mapping : Mapping) :
    List PMNode → Nat → Nat → Nat → List DocChange
  | [], _, _, _ => []
  | c :: rest, f, t, pos =>
    if pos < t then
      let stop := pos + c.nodeSize
      (if stop > f then detectN docAfter mapping c f t pos else [])
        ++ detectF docAfter mapping rest f t stop
    else []

/-- Callback body of `detectNodeFormatChanges` for one visited node. -/
def detectN (docAfter : PMNode) (mapping : Mapping) :
    PMNode → Nat → Nat → Nat → List DocChange
  | .text _ _, _, _, _ => []
  | .block ty attrs cs, f, t, pos =>
    if BLOCK_SUGGESTION_TYPES.contains ty then
      match docAfter.nodeAt pos with
      | none => []
      | some nodeAfter =>
        let cleanBefore := stripSuggestionAttrs attrs
        let cleanAfter := stripSuggestionAttrs nodeAfter.attrsOf
        let typeChanged := ty != nodeAfter.typeName
        let attrsChanged := jsonStringify (.obj cleanBefore) != jsonStringify (.obj cleanAfter)
        if typeChanged || attrsChanged then
          [.nodeFormat (mapping.map pos 1)
            (describeNodeFormatChange ty cleanBefore nodeAfter.typeName cleanAfter)
            ty cleanBefore]
        else []
    else detectF docAfter mapping cs f t (pos + 1)

end

/-- `detectNodeFormatChanges(docBefore, docAfter, from, to, mapping)`. -/
def detectNodeFormatChanges (docBefore docAfter : PMNode) (f t : Nat)
    (mapping : Mapping) : List DocChange :=
  match docBefore with
  | .text _ _ => []
  | .block _ _ cs => detectF docAfter mapping cs f t 0

/-! ## Change extraction (`extractChangesFromTransaction`) -/

/-- Body of the `stepMap.forEach` callback chain of a content step:
process the `(oldStart, oldEnd, newStart, newEnd)` quadruples in order,
producing the step's text-level records and the `anyTextChange` flag.
A quadruple whose deleted and inserted texts are equal and non-empty is
skipped (pure restructuring). -/
def processQuads (docB docA : PMNode) (mapBefore mapEnd : Mapping) :
    List (Nat × Nat × Nat × Nat) → List DocChange × Bool
  | [] => ([], false)
  | (f, t, nf, nt) :: rest =>
    let (restChanges, restAny) := processQuads docB docA mapBefore mapEnd rest
    let deletedText := if t > f then docB.textBetween f t "\n" else ""
    let insertedText := if nt > nf then docA.textBetween nf nt "\n" else ""
    if deletedText.length > 0 && insertedText.length > 0 then
      if deletedText == insertedText then (restChanges, restAny)
      else
        let deletePos := mapBefore.map f 1
        let insertFrom := mapEnd.map nf 1
        let insertTo := mapEnd.map nt (-1)
        (.replace deletePos insertFrom insertTo deletedText insertedText :: restChanges, true)
    else
      let dels : List DocChange :=
        if deletedText.length > 0 then
          let deletePos := mapBefore.map f 1
          [.delete deletePos deletePos deletedText]
        else []
      let inss : List DocChange :=
        if insertedText.length > 0 then
          [.insert (mapEnd.map nf 1) (mapEnd.map nt (-1)) insertedText]
        else []
      (dels ++ inss ++ restChanges,
       (deletedText.length > 0 || insertedText.length > 0) || restAny)

/-- Records produced by one mark step (`AddMarkStep` / `RemoveMarkStep`)
together with the baseline document for the next step. A
`liveblocksCommentMark` step only advances the baseline; a step that fails
to replay is skipped without advancing it. -/
def markStepResult (docBeforeStep : PMNode) (isAdd : Bool) (sf st : Nat)
    (mark : MarkData) (applied : Option PMNode) (restMaps : List StepMap) :
    List DocChange × PMNode :=
  if mark.ty == "liveblocksCommentMark" then
    match applied with
    | some d2 => ([], d2)
    | none => ([], docBeforeStep)
  else
    match applied with
    | none => ([], docBeforeStep)
    | some docAfterStep =>
      if pmEq docBeforeStep docAfterStep then ([], docAfterStep)
      else
        let text := docBeforeStep.textBetween sf st "\n"
        if text.length = 0 then ([], docAfterStep)
        else
          let mapEnd := Mapping.mk restMaps
          let mappedFrom := mapEnd.map sf 1
          let mappedTo := mapEnd.map st (-1)
          let oldNodes := captureOldTextNodes docBeforeStep sf st
          ([.format mappedFrom mappedTo text (describeFormatStep isAdd mark) oldNodes],
           docAfterStep)

/-- Step loop of `extractChangesFromTransaction`: walk the steps replaying
each against the running baseline document; `tr.mapping.slice(i + 1)` is
the composition of the remaining steps' maps. -/
def extractGo : PMNode → List Step → List DocChange
  | _, [] => []
  | docBeforeStep, step :: rest =>
    match step with
    | .addMark sf st mark g =>
      let (recs, d2) := markStepResult docBeforeStep true sf st mark (g docBeforeStep)
        (rest.map Step.getMap)
      recs ++ extractGo d2 rest
    | .removeMark sf st mark g =>
      let (recs, d2) := markStepResult docBeforeStep false sf st mark (g docBeforeStep)
        (rest.map Step.getMap)
      recs ++ extractGo d2 rest
    | .otherStep g =>
      match g docBeforeStep with
      | some d2 => extractGo d2 rest
      | none => extractGo docBeforeStep rest
    | .replaceStep sf st smap g =>
      match g docBeforeStep with
      | none => extractGo docBeforeStep rest
      | some docAfterStep =>
        let mapEnd := Mapping.mk (rest.map Step.getMap)
        let mapFromBefore := Mapping.mk (smap :: rest.map Step.getMap)
        let (stepChanges, anyText) :=
          processQuads docBeforeStep docAfterStep mapFromBefore mapEnd smap.quads
        let nodeChanges :=
          if !anyText && !(pmEq docBeforeStep docAfterStep) then
            detectNodeFormatChanges docBeforeStep docAfterStep sf st mapEnd
          else []
        stepChanges ++ nodeChanges ++ extractGo docAfterStep rest

/-- `extractChangesFromTransaction(tr)`. -/
def extractChangesFromTransaction (tr : Transaction) : List DocChange :=
  extractGo tr.before tr.steps
/-! ## Debounce-session plugin (`SuggestionMode.addProseMirrorPlugins`) -/

/-- Per-session plugin state (`init` in the source; the `viewRef` UI
handle is outside the model). `debounceTimeout` holds the identifier of
the outstanding debounce timer, if any. -/
structure PluginState where
  previousDoc : PMNode
  debounceTimeout : Option Nat
  pendingChanges : List DocChange
  isProcessing : Bool

/-- Side effects requested by one run of the plugin's `apply`:
`onPendingChange` callbacks, `clearTimeout` of a prior timer, and
`setTimeout` of the 1500 ms debounce timer (returning a fresh handle). -/
inductive PluginEffect where
  | notifyPending (isPending : Bool)
  | clearTimer (handle : Nat)
  | startTimer (handle : Nat)
deriving BEq, DecidableEq

/-- `isCommentMarkOnly`: the transaction changed the document and every
one of its steps is an add / remove of the `liveblocksCommentMark` mark. -/
def isCommentMarkOnly (tr : Transaction) : Bool :=
  tr.docChanged && tr.steps.length > 0 && tr.steps.all (fun s =>
    match s with
    | .addMark _ _ mark _ => mark.ty == "liveblocksCommentMark"
    | .removeMark _ _ mark _ => mark.ty == "liveblocksCommentMark"
    | _ => false)

/-- The plugin's `state.apply(tr, pluginState, oldState, newState)`.
`freshHandle` models the handle returned by `setTimeout` when a new
debounce timer is started. -/
def suggestionPluginApply (tr : Transaction) (st : PluginState)
    (oldDoc newDoc : PMNode) (freshHandle : Nat) : PluginState × List PluginEffect :=
  if tr.metaRemote then (st, [])
  else if tr.metaSuggestionMode || tr.metaSuggestionThreadUpdate then
    (PluginState.mk newDoc none [] false,
     if st.debounceTimeout.isSome then [.notifyPending false] else [])
  else if isCommentMarkOnly tr then
    ({ st with previousDoc := newDoc }, [])
  else if tr.docChanged && !st.isProcessing then
    let isStartingNewEdit := st.debounceTimeout.isNone
    let baselineDoc := if isStartingNewEdit then oldDoc else st.previousDoc
    let mappedExistingChanges :=
      if isStartingNewEdit then ([] : List DocChange)
      else st.pendingChanges.map (fun c => mapDocChange c tr.mapping)
    let extractedChanges := extractChangesFromTransaction tr
    let pendingChanges := mergeDocChanges (mappedExistingChanges ++ extractedChanges)
    let effects :=
      (if isStartingNewEdit then [PluginEffect.notifyPending true] else [])
      ++ (match st.debounceTimeout with
          | some h => [PluginEffect.clearTimer h]
          | none => [])
      ++ [PluginEffect.startTimer freshHandle]
    (PluginState.mk baselineDoc (some freshHandle) pendingChanges false, effects)
  else (st, [])

/-- A ProseMirror plugin, seen through the interface the editor uses:
initial state from the initial document, and the `apply` reducer. -/
structure EditorPlugin where
  init : PMNode → PluginState
  applyTr : Transaction → PluginState → PMNode → PMNode → Nat → PluginState × List PluginEffect

/-- The suggestion-mode tracking plugin. -/
def suggestionModePlugin : EditorPlugin :=
  EditorPlugin.mk
    (fun doc => PluginState.mk doc none [] false)
    suggestionPluginApply

/-- Options of the `SuggestionMode` extension. -/
structure SuggestionModeOptions where
  isOwner : Bool
  userId : String

/-- `SuggestionMode.addProseMirrorPlugins`: the owner / reviewer role gets
no tracking plugin at all. -/
def addProseMirrorPlugins (opts : SuggestionModeOptions) : List EditorPlugin :=
  if opts.isOwner then [] else [suggestionModePlugin]

/-- Editor loop: apply each dispatched transaction to the document (the
editing core applies edits regardless of plugins) and fold every plugin's
`apply` over it, collecting the requested effects. Suggestion marks,
node-suggestion attributes and thread requests are only ever produced by
effects of the tracking plugin (a started debounce timer firing the
materializer), so the collected effect list accounts for all of them. -/
def runEditorStep (plugins : List EditorPlugin)
    (acc : PMNode × List PluginState × List PluginEffect × Nat) (tr : Transaction) :
    PMNode × List PluginState × List PluginEffect × Nat :=
  let stepped := (plugins.zip acc.2.1).map
    (fun ps => ps.1.applyTr tr ps.2 acc.1 tr.doc acc.2.2.2)
  (tr.doc, stepped.map (fun r => r.1), acc.2.2.1 ++ stepped.flatMap (fun r => r.2),
   acc.2.2.2 + 1)

/-- Editor loop, continued: fold the per-batch step over the batches. -/
def runEditor (plugins : List EditorPlugin) (doc : PMNode)
    (batches : List Transaction) : PMNode × List PluginEffect :=
  let final := batches.foldl (runEditorStep plugins)
    (doc, plugins.map (fun p => p.init doc), ([] : List PluginEffect), 0)
  (final.1, final.2.2.1)

/-! ## Suggestion materializer (`createSuggestionsForChanges`)

Only the order of the mutating operations appended to the transaction is
at stake here, so the operations are reified. -/

/-- One mutating operation appended by `createSuggestionsForChanges`. -/
inductive MatOp where
  /-- `tr.addMark(from, to, suggestionInsert-mark)` -/
  | addInsertMark (f t : Nat)
  /-- `tr.insert(pos, text-node tagged suggestionDelete)` -/
  | insertDeleteText (pos : Nat) (text : String)
  /-- `tr.insert(pos, captured old text nodes, each tagged suggestionDelete)` -/
  | insertOldNodes (pos : Nat) (oldNodes : List OldTextNode)
  /-- `tr.setNodeMarkup(pos, undefined, attrs + node-suggestion bookkeeping)` -/
  | setNodeSuggestionMarkup (pos : Nat)
deriving BEq

/-- Is the operation an insert-marking (adding `suggestionInsert` over
text already in the document)? -/
def MatOp.isInsertMarking : MatOp → Bool
  | .addInsertMark _ _ => true
  | _ => false

/-- Is the operation a compensating re-insertion of deleted / old text? -/
def MatOp.isReinsertion : MatOp → Bool
  | .insertDeleteText _ _ => true
  | .insertOldNodes _ _ => true
  | _ => false

/-- The operations appended by `createSuggestionsForChanges`, in their
dispatch order: the changes are partitioned by kind (replace, format,
insert, delete, nodeFormat) and each partition is processed in record
order; a `replace` or `format` record appends its insert-marking
immediately followed by its own re-insertion; a `nodeFormat` record is
skipped when its node is missing or already carries a pending node
suggestion. `doc` is `view.state.doc` at materialization time. -/
def createSuggestionOps (doc : PMNode) (changes : List DocChange) : List MatOp :=
  let replaceChanges := changes.filter (fun c => match c with
    | .replace _ _ _ _ _ => true | _ => false)
  let formatChanges := changes.filter (fun c => match c with
    | .format _ _ _ _ _ => true | _ => false)
  let insertChanges := changes.filter (fun c => match c with
    | .insert _ _ _ => true | _ => false)
  let deleteChanges := changes.filter (fun c => match c with
    | .delete _ _ _ => true | _ => false)
  let nodeFormatChanges := changes.filter (fun c => match c with
    | .nodeFormat _ _ _ _ => true | _ => false)
  (replaceChanges.flatMap (fun c => match c with
    | .replace f inF inT oldT _ => [MatOp.addInsertMark inF inT, MatOp.insertDeleteText f oldT]
    | _ => []))
  ++ (formatChanges.flatMap (fun c => match c with
    | .format f t _ _ oldNodes =>
      MatOp.addInsertMark f t :: (if oldNodes.length > 0 then [MatOp.insertOldNodes f oldNodes] else [])
    | _ => []))
  ++ (insertChanges.flatMap (fun c => match c with
    | .insert f t _ => [MatOp.addInsertMark f t]
    | _ => []))
  ++ (deleteChanges.flatMap (fun c => match c with
    | .delete f _ text => [MatOp.insertDeleteText f text]
    | _ => []))
  ++ (nodeFormatChanges.flatMap (fun c => match c with
    | .nodeFormat pos _ _ _ =>
      match doc.nodeAt pos with
      | none => []
      | some node =>
        if truthyA (attrLookup node.attrsOf "nodeSuggestionId") then []
        else [MatOp.setNodeSuggestionMarkup pos]
    | _ => []))

/-- The ordering constraint at stake in the materializer: no compensating
re-insertion may precede any insert-marking in the operation order. -/
def noMarkingAfterReinsertion : List MatOp → Bool
  | [] => true
  | op :: rest =>
    (if op.isReinsertion then rest.all (fun o => !o.isInsertMarking) else true)
      && noMarkingAfterReinsertion rest

/-! ## Accept / reject of inline suggestions (`suggestion.ts`) -/

/-- Does the mark carry `attrs.suggestionId === suggestionId`? -/
def markHasSuggestionId (mark : MarkData) (suggestionId : String) : Bool :=
  match attrLookup mark.attrs "suggestionId" with
  | some (.str s) => s == suggestionId
  | _ => false

/-- One collected operation of `acceptSuggestion` / `rejectSuggestion`:
either `tr.removeMark(pos, pos + nodeSize, markType)` or
`tr.delete(pos, pos + nodeSize)`. -/
inductive SugOp where
  | removeMarkOfType (pos size : Nat) (markType : String)
  | deleteSpan (pos size : Nat)
deriving BEq, DecidableEq

mutual

/-- `doc.descendants` collection pass of `acceptSuggestion`: for every
text node, every mark with the given suggestion id contributes an
operation — strip the mark for `suggestionInsert`, delete the span for
`suggestionDelete`. -/
def collectAcceptF (suggestionId : String) : List PMNode → Nat → List SugOp
  | [], _ => []
  | c :: rest, pos =>
    collectAcceptN suggestionId c pos ++ collectAcceptF suggestionId rest (pos + c.nodeSize)

/-- Operations contributed by one node (descending into block children at
`pos + 1`). -/
def collectAcceptN (suggestionId : String) : PMNode → Nat → List SugOp
  | .text s marks, pos =>
    marks.flatMap (fun mark =>
      if markHasSuggestionId mark suggestionId then
        if mark.ty == "suggestionInsert" then [SugOp.removeMarkOfType pos s.length "suggestionInsert"]
        else if mark.ty == "suggestionDelete" then [SugOp.deleteSpan pos s.length]
        else []
      else [])
  | .block _ _ cs, pos => collectAcceptF suggestionId cs (pos + 1)

end

mutual

/-- `doc.descendants` collection pass of `rejectSuggestion`: delete the
span for `suggestionInsert`, strip the mark for `suggestionDelete`. -/
def collectRejectF (suggestionId : String) : List PMNode → Nat → List SugOp
  | [], _ => []
  | c :: rest, pos =>
    collectRejectN suggestionId c pos ++ collectRejectF suggestionId rest (pos + c.nodeSize)

/-- Operations contributed by one node. -/
def collectRejectN (suggestionId : String) : PMNode → Nat → List SugOp
  | .text s marks, pos =>
    marks.flatMap (fun mark =>
      if markHasSuggestionId mark suggestionId then
        if mark.ty == "suggestionInsert" then [SugOp.deleteSpan pos s.length]
        else if mark.ty == "suggestionDelete" then [SugOp.removeMarkOfType pos s.length "suggestionDelete"]
        else []
      else [])
  | .block _ _ cs, pos => collectRejectF suggestionId cs (pos + 1)

end

/-- Apply one collected operation to the document. -/
def applySugOp (doc : PMNode) : SugOp → PMNode
  | .removeMarkOfType p sz mty => doc.removeMarkRange p (p + sz) mty
  | .deleteSpan p sz => doc.deleteRange p (p + sz)

/-- `acceptSuggestion(suggestionId)`: collect the operations in document
order and apply them in reverse order to keep earlier positions valid. -/
def acceptSuggestion (doc : PMNode) (suggestionId : String) : PMNode :=
  match doc with
  | .text s m => .text s m
  | .block ty a cs =>
    ((collectAcceptF suggestionId cs 0).reverse).foldl applySugOp (.block ty a cs)

/-- `rejectSuggestion(suggestionId)`. -/
def rejectSuggestion (doc : PMNode) (suggestionId : String) : PMNode :=
  match doc with
  | .text s m => .text s m
  | .block ty a cs =>
    ((collectRejectF suggestionId cs 0).reverse).foldl applySugOp (.block ty a cs)
/-! ## JSON parsing (model of `JSON.parse`)

An executable recursive-descent reader for the JSON grammar this
subsystem serialises (null, booleans, integer numbers, strings with
quote / backslash escapes, arrays, objects); `none` models a thrown
`SyntaxError`. -/

/-- Opening brace character. -/
def obQuote : Char := Char.ofNat 123

/-- Closing brace character. -/
def cbQuote : Char := Char.ofNat 125

/-- Skip JSON whitespace. -/
def skipWs : List Char → List Char
  | c :: rest =>
    if c = ' ' || c = '\n' || c = '\t' || c = '\r' then skipWs rest else c :: rest
  | [] => []

/-- Unescape one character after a backslash in a JSON string literal. -/
def unescapeChar (c : Char) : Char :=
  if c = 'n' then '\n' else if c = 't' then '\t' else if c = 'r' then '\r' else c

/-- Read the body of a JSON string literal after the opening quote. -/
def parseStrBody : List Char → Option (String × List Char)
  | [] => none
  | '"' :: rest => some ("", rest)
  | '\\' :: c :: rest =>
    (parseStrBody rest).map (fun p => (String.singleton (unescapeChar c) ++ p.1, p.2))
  | c :: rest => (parseStrBody rest).map (fun p => (String.singleton c ++ p.1, p.2))

/-- Read an optionally negated integer literal. -/
def parseIntLit (cs : List Char) : Option (JVal × List Char) :=
  let (neg, cs1) := match cs with
    | '-' :: rest => (true, rest)
    | _ => (false, cs)
  let digits := cs1.takeWhile Char.isDigit
  if digits.length = 0 then none
  else
    let n : Int := digits.foldl (fun a c => a * 10 + ((c.toNat : Int) - 48)) 0
    some (.num (if neg then -n else n), cs1.drop digits.length)

mutual

/-- Read one JSON value (fuelled recursion; the fuel is the remaining
input length plus one, ample for the grammar). -/
def parseJVal : Nat → List Char → Option (JVal × List Char)
  | 0, _ => none
  | Nat.succ fuel, cs0 =>
    match skipWs cs0 with
    | [] => none
    | c :: cs =>
      if c = 'n' then
        match cs with
        | 'u' :: 'l' :: 'l' :: r => some (.null, r)
        | _ => none
      else if c = 't' then
        match cs with
        | 'r' :: 'u' :: 'e' :: r => some (.bool true, r)
        | _ => none
      else if c = 'f' then
        match cs with
        | 'a' :: 'l' :: 's' :: 'e' :: r => some (.bool false, r)
        | _ => none
      else if c = '"' then (parseStrBody cs).map (fun p => (.str p.1, p.2))
      else if c = '[' then
        match skipWs cs with
        | ']' :: r => some (.arr [], r)
        | cs2 => (parseArrItems fuel cs2).map (fun p => (.arr p.1, p.2))
      else if c = obQuote then
        match skipWs cs with
        | c2 :: r =>
          if c2 = cbQuote then some (.obj [], r)
          else (parseObjFields fuel (c2 :: r)).map (fun p => (.obj p.1, p.2))
        | [] => none
      else parseIntLit (c :: cs)

/-- Read the comma-separated items of a non-empty array. -/
def parseArrItems : Nat → List Char → Option (List JVal × List Char)
  | 0, _ => none
  | Nat.succ fuel, cs =>
    match parseJVal fuel cs with
    | none => none
    | some (v, r) =>
      match skipWs r with
      | ',' :: r2 => (parseArrItems fuel r2).map (fun p => (v :: p.1, p.2))
      | ']' :: r2 => some ([v], r2)
      | _ => none

/-- Read the comma-separated fields of a non-empty object. -/
def parseObjFields : Nat → List Char → Option (List (String × JVal) × List Char)
  | 0, _ => none
  | Nat.succ fuel, cs =>
    match skipWs cs with
    | '"' :: cs1 =>
      match parseStrBody cs1 with
      | none => none
      | some (k, r) =>
        match skipWs r with
        | ':' :: r2 =>
          match parseJVal fuel r2 with
          | none => none
          | some (v, r3) =>
            match skipWs r3 with
            | ',' :: r4 => (parseObjFields fuel r4).map (fun p => ((k, v) :: p.1, p.2))
            | c :: r4 =>
              if c = cbQuote then some ([(k, v)], r4) else none
            | [] => none
        | _ => none
    | _ => none

end

/-- `JSON.parse(s)`: `none` models a thrown `SyntaxError` (including
trailing garbage). -/
def jsonParse (s : String) : Option JVal :=
  match parseJVal (s.length + 1) s.data with
  | some (v, rest) => if skipWs rest = [] then some v else none
  | none => none

/-! ## Accept / reject of node suggestions (`node-suggestion.ts`) -/

mutual

/-- `doc.descendants` collection pass of the node-suggestion commands:
every node whose `nodeSuggestionId` attribute equals the suggestion id,
in document order (a parent before its children), with its position. -/
def collectNodeSugF (suggestionId : String) : List PMNode → Nat → List (Nat × PMNode)
  | [], _ => []
  | c :: rest, pos =>
    collectNodeSugN suggestionId c pos ++ collectNodeSugF suggestionId rest (pos + c.nodeSize)

/-- Matches contributed by one node and its descendants. -/
def collectNodeSugN (suggestionId : String) : PMNode → Nat → List (Nat × PMNode)
  | .text _ _, _ => []
  | .block ty a cs, pos =>
    (if (match attrLookup a "nodeSuggestionId" with
         | some (.str s) => s == suggestionId
         | _ => false)
     then [(pos, PMNode.block ty a cs)] else [])
      ++ collectNodeSugF suggestionId cs (pos + 1)

end

/-- `acceptNodeSuggestion(suggestionId)`: strip the bookkeeping
attributes of every matching node, processing the matches in reverse
document order. -/
def acceptNodeSuggestion (doc : PMNode) (suggestionId : String) : PMNode :=
  match doc with
  | .text s m => .text s m
  | .block ty a cs =>
    ((collectNodeSugF suggestionId cs 0).reverse).foldl
      (fun d pn => d.setNodeMarkupAt pn.1 none (stripSuggestionAttrs pn.2.attrsOf))
      (.block ty a cs)

/-- The `setNodeMarkup` arguments computed by `rejectNodeSuggestion` for
one matching node, or `none` when the JS code throws: parse
`nodeSuggestionOldData` (`?? "null"`, a parse error caught to `null`);
if the result is truthy and its `.type` names a schema node type, restore
that type with the snapshot's attributes stripped of bookkeeping keys —
but destructuring `oldData.attrs` throws a `TypeError` when it is `null`
or missing; otherwise fall back to stripping the bookkeeping keys from
the node's current attributes, keeping its type. -/
def rejectNodeTransform (schemaNodeTypes : List String) (node : PMNode) :
    Option (Option String × Attrs) :=
  let oldDataStr := match attrLookup node.attrsOf "nodeSuggestionOldData" with
    | some (.str s) => s
    | _ => "null"
  let oldData := jsonParse oldDataStr
  let restored : Option (Option (Option String × Attrs)) :=
    match oldData with
    | some od =>
      if truthyJ od then
        match (match od with | .obj fs => attrLookup fs "type" | _ => none) with
        | some (.str tyName) =>
          if schemaNodeTypes.contains tyName then
            match (match od with | .obj fs => attrLookup fs "attrs" | _ => none) with
            | some (.obj a) => some (some (some tyName, stripSuggestionAttrs a))
            | some .null => some none
            | none => some none
            | some _ => some (some (some tyName, []))
          else none
        | _ => none
      else none
    | none => none
  match restored with
  | some r => r
  | none => some (none, stripSuggestionAttrs node.attrsOf)

/-- `rejectNodeSuggestion(suggestionId)`: process the matches in reverse
document order, restoring each from its snapshot or falling back to
stripping the bookkeeping attributes; `none` models the command
throwing. -/
def rejectNodeSuggestion (schemaNodeTypes : List String) (doc : PMNode)
    (suggestionId : String) : Option PMNode :=
  match doc with
  | .text s m => some (.text s m)
  | .block ty a cs =>
    ((collectNodeSugF suggestionId cs 0).reverse).foldlM
      (fun d pn =>
        match rejectNodeTransform schemaNodeTypes pn.2 with
        | some (oty, newAttrs) => some (PMNode.setNodeMarkupAt d pn.1 oty newAttrs)
        | none => none)
      (PMNode.block ty a cs)
/-! ## Concrete fixtures used by witnesses and counterexamples -/

/-- A one-paragraph document with text "ab". -/
def docParAB : PMNode := .block "doc" [] [.block "paragraph" [] [.text "ab" []]]

/-- The same content restructured as a level-1 heading. -/
def docHeadingAB : PMNode := .block "doc" [] [.block "heading" [("level", .num 1)] [.text "ab" []]]

/-- `docParAB` after inserting "X" at position 1. -/
def docParXab : PMNode := .block "doc" [] [.block "paragraph" [] [.text "Xab" []]]

/-- Node types registered in this editor's schema. -/
def editorSchemaNodeTypes : List String :=
  ["doc", "paragraph", "heading", "bulletList", "orderedList", "listItem",
   "taskList", "taskItem", "blockquote", "codeBlock", "text"]

/-! ## C4 — `Delete` records map their single anchor with insertion bias -/

/-- C4: for every `Delete` change record, remapping through a mapping maps
the single `from` anchor with insertion bias (`assoc = 1`) and makes both
`from` and `to` of the result equal to that mapped anchor; in particular a
`Delete` anchored at baseline position 10, remapped through an unrelated
3-character insertion at position 0, lands at anchor position 13. -/
theorem C4_delete_record_maps_anchor_with_insertion_bias :
    (∀ (f t : Nat) (text : String) (m : Mapping),
      mapDocChange (.delete f t text) m = .delete (m.map f 1) (m.map f 1) text)
    ∧ mapDocChange (.delete 10 10 "x") (Mapping.mk [StepMap.mk [(0, 0, 3)]])
        = .delete 13 13 "x" := by
  exact ⟨fun f t text m => rfl, rfl⟩

/-! ## C1 — a chain of adjacent inserts merges into one record -/

/-- Is a list of `(from, to, text)` insert descriptors chained onto a
record ending at position `prevTo` (each record starting where the
previous one ended)? -/
def insChainB : Nat → List (Nat × Nat × String) → Bool
  | _, [] => true
  | prevTo, (f, t, _) :: rest => prevTo == f && insChainB t rest

/-- Concatenation of the texts of a list of insert descriptors. -/
def insTexts : List (Nat × Nat × String) → String
  | [] => ""
  | q :: rest => q.2.2 ++ insTexts rest

/-- Generalized merge computation along an insert chain: folding chained
inserts onto a single accumulated insert record extends it. -/
theorem mergeStep_insert_chain :
    ∀ (rest : List (Nat × Nat × String)) (a t : Nat) (s : String)
      (d : Nat × Nat × String), d.2.1 = t → insChainB t rest = true →
      (rest.map (fun q => DocChange.insert q.1 q.2.1 q.2.2)).foldl mergeStep
          [DocChange.insert a t s]
        = [DocChange.insert a ((rest.getLastD d).2.1) (s ++ insTexts rest)] := by
  intro rest
  induction rest with
  | nil =>
    intro a t s d hd _
    simp [insTexts, hd]
  | cons q rest2 ih =>
    intro a t s d hd hchain
    obtain ⟨f2, t2, s2⟩ := q
    simp only [insChainB, Bool.and_eq_true, beq_iff_eq] at hchain
    obtain ⟨hf, hchain2⟩ := hchain
    have hstep : mergeStep [DocChange.insert a t s] (DocChange.insert f2 t2 s2)
        = [DocChange.insert a t2 (s ++ s2)] := by
      simp [mergeStep, mergeOne, hf]
    simp only [List.map_cons, List.foldl_cons, hstep]
    rw [ih a t2 (s ++ s2) (f2, t2, s2) rfl hchain2, List.getLastD_cons]
    simp only [insTexts]
    rw [String.append_assoc]

/-- C1: a chronologically ordered list of `Insert` records in which each
record's `from` equals the previous record's `to` is collapsed by
`mergeDocChanges` into exactly one `Insert` record spanning from the first
record's `from` to the last record's `to`, with the concatenated text. -/
theorem C1_adjacent_insert_chain_collapses_to_one
    (p : Nat × Nat × String) (rest : List (Nat × Nat × String))
    (hchain : insChainB p.2.1 rest = true) :
    mergeDocChanges ((p :: rest).map (fun q => DocChange.insert q.1 q.2.1 q.2.2))
      = [DocChange.insert p.1 (((p :: rest).getLastD p).2.1) (insTexts (p :: rest))] := by
  obtain ⟨f, t, s⟩ := p
  simp only [List.map_cons, mergeDocChanges, List.foldl_cons]
  have h0 : mergeStep [] (DocChange.insert f t s) = [DocChange.insert f t s] := rfl
  rw [h0, mergeStep_insert_chain rest f t s (f, t, s) rfl hchain, List.getLastD_cons]
  simp only [insTexts, List.reverse_singleton]

/-- C1 witness: typing "hello" as five single-character records yields one
`Insert` record with text "hello" spanning 1 to 6. -/
theorem C1_witness :
    insChainB 2 [(2, 3, "e"), (3, 4, "l"), (4, 5, "l"), (5, 6, "o")] = true
    ∧ mergeDocChanges
        ([((1 : Nat), (2 : Nat), "h"), (2, 3, "e"), (3, 4, "l"), (4, 5, "l"), (5, 6, "o")].map
          (fun q => DocChange.insert q.1 q.2.1 q.2.2))
        = [DocChange.insert 1 6 "hello"] := by
  refine ⟨rfl, ?_⟩
  have := C1_adjacent_insert_chain_collapses_to_one (1, 2, "h")
    [(2, 3, "e"), (3, 4, "l"), (4, 5, "l"), (5, 6, "o")] rfl
  exact this

/-! ## C10 — the merger is idempotent -/

/-- An optional value guarded by a decidable condition is `none` whenever
another optional value guarded by the same condition is. -/
theorem optIte_none {α β : Type} {c : Prop} [Decidable c] {x : α} {y : β}
    (h : (if c then some x else none) = none) :
    (if c then some y else none) = none := by
  by_cases hc : c <;> simp [hc] at h ⊢

/-- Merging `next` into `prev` does not change the fields of `prev` that a
later merge-rule test against an earlier record reads, so a pair that was
unmergeable stays unmergeable after `prev` is extended. -/
theorem mergeOne_none_of_extended {prev c m : DocChange}
    (h : mergeOne prev c = some m) (a : DocChange)
    (hnone : mergeOne a prev = none) : mergeOne a m = none := by
  cases prev with
  | insert f t s =>
    cases c with
    | insert f2 t2 s2 =>
      have h2 : (if t = f2 then some (DocChange.insert f t2 (s ++ s2)) else none) = some m := h
      split at h2
      · injection h2 with h3
        subst h3
        cases a <;> (try rfl) <;> simp only [mergeOne] at hnone ⊢ <;>
          exact optIte_none hnone
      · exact Option.noConfusion h2
    | delete f2 t2 s2 => exact Option.noConfusion h
    | replace a2 b2 c2 d2 e2 => exact Option.noConfusion h
    | format a2 b2 c2 d2 e2 => exact Option.noConfusion h
    | nodeFormat a2 b2 c2 d2 => exact Option.noConfusion h
  | delete f t s =>
    cases c with
    | delete f2 t2 s2 =>
      have h2 : (if f = f2 then some (DocChange.delete f t (s2 ++ s)) else none) = some m := h
      split at h2
      · injection h2 with h3
        subst h3
        cases a <;> (try rfl) <;> simp only [mergeOne] at hnone ⊢ <;>
          exact optIte_none hnone
      · exact Option.noConfusion h2
    | insert f2 t2 s2 => exact Option.noConfusion h
    | replace a2 b2 c2 d2 e2 => exact Option.noConfusion h
    | format a2 b2 c2 d2 e2 => exact Option.noConfusion h
    | nodeFormat a2 b2 c2 d2 => exact Option.noConfusion h
  | replace f inF inT oldT newT =>
    cases c with
    | insert f2 t2 s2 =>
      have h2 : (if inT = f2 then
          some (DocChange.replace f inF t2 oldT (newT ++ s2)) else none) = some m := h
      split at h2
      · injection h2 with h3
        subst h3
        cases a <;> rfl
      · exact Option.noConfusion h2
    | delete f2 t2 s2 => exact Option.noConfusion h
    | replace a2 b2 c2 d2 e2 => exact Option.noConfusion h
    | format a2 b2 c2 d2 e2 => exact Option.noConfusion h
    | nodeFormat a2 b2 c2 d2 => exact Option.noConfusion h
  | format f t text d olds =>
    cases c with
    | format f2 t2 text2 d2 olds2 =>
      have h2 : (if f = f2 ∧ t = t2 then
          some (DocChange.format f t text (d ++ ", " ++ d2) olds) else none) = some m := h
      split at h2
      · injection h2 with h3
        subst h3
        cases a <;> (try rfl) <;> simp only [mergeOne] at hnone ⊢ <;>
          exact optIte_none hnone
      · exact Option.noConfusion h2
    | insert f2 t2 s2 => exact Option.noConfusion h
    | delete f2 t2 s2 => exact Option.noConfusion h
    | replace a2 b2 c2 d2 e2 => exact Option.noConfusion h
    | nodeFormat a2 b2 c2 d2 => exact Option.noConfusion h
  | nodeFormat p d oty oattrs =>
    cases c with
    | nodeFormat p2 d2 oty2 oattrs2 =>
      have h2 : (if p = p2 then
          some (DocChange.nodeFormat p (d ++ ", " ++ d2) oty oattrs) else none) = some m := h
      split at h2
      · injection h2 with h3
        subst h3
        cases a <;> (try rfl) <;> simp only [mergeOne] at hnone ⊢ <;>
          exact optIte_none hnone
      · exact Option.noConfusion h2
    | insert f2 t2 s2 => exact Option.noConfusion h
    | delete f2 t2 s2 => exact Option.noConfusion h
    | replace a2 b2 c2 d2 e2 => exact Option.noConfusion h
    | format a2 b2 c2 d2 e2 => exact Option.noConfusion h

/-- The reversed merge accumulator never holds an adjacent mergeable
pair. -/
theorem merge_foldl_chain (cs : List DocChange) :
    ∀ acc, List.Chain' (fun b a => mergeOne a b = none) acc →
      List.Chain' (fun b a => mergeOne a b = none) (cs.foldl mergeStep acc) := by
  induction cs with
  | nil => intro acc h; exact h
  | cons c cs2 ih =>
    intro acc h
    simp only [List.foldl_cons]
    apply ih
    match acc, h with
    | [], _ => simp [mergeStep]
    | prev :: rest, h =>
      cases hm : mergeOne prev c with
      | none =>
        simp only [mergeStep, hm]
        exact List.Chain'.cons hm h
      | some m =>
        simp only [mergeStep, hm]
        match rest, h with
        | [], _ => simp
        | a :: rest2, h =>
          rw [List.chain'_cons] at h ⊢
          exact ⟨mergeOne_none_of_extended hm a h.1, h.2⟩

/-- A list with no adjacent mergeable pair is a fixed point of the
merger. -/
theorem merge_fixed_of_chain :
    ∀ (cs : List DocChange),
      List.Chain' (fun a b => mergeOne a b = none) cs → mergeDocChanges cs = cs := by
  have aux : ∀ (cs : List DocChange) (p : DocChange) (rest : List DocChange),
      List.Chain' (fun a b => mergeOne a b = none) (p :: cs) →
      cs.foldl mergeStep (p :: rest) = cs.reverse ++ p :: rest := by
    intro cs
    induction cs with
    | nil => intro p rest _; simp
    | cons c cs2 ih =>
      intro p rest h
      rw [List.chain'_cons] at h
      simp only [List.foldl_cons, mergeStep, h.1]
      rw [ih c (p :: rest) h.2]
      simp
  intro cs h
  match cs, h with
  | [], _ => rfl
  | c :: cs2, h =>
    simp only [mergeDocChanges, List.foldl_cons]
    have h0 : mergeStep [] c = [c] := rfl
    rw [h0, aux cs2 c [] h]
    simp

/-- C10: the change merger is idempotent — its output contains no adjacent
pair still satisfying any merge rule, so a second pass returns the output
unchanged. -/
theorem C10_merger_idempotent (cs : List DocChange) :
    List.Chain' (fun a b => mergeOne a b = none) (mergeDocChanges cs)
    ∧ mergeDocChanges (mergeDocChanges cs) = mergeDocChanges cs := by
  have hchain : List.Chain' (fun a b => mergeOne a b = none) (mergeDocChanges cs) := by
    have := merge_foldl_chain cs [] (by simp)
    have hrev := (List.chain'_reverse (l := cs.foldl mergeStep [])
      (R := fun a b => mergeOne a b = none)).2
    exact hrev (by simpa [Function.flip_def] using this)
  exact ⟨hchain, merge_fixed_of_chain _ hchain⟩
/-! ## C7 — behaviour of extraction on a step that fails to replay -/

/-- A step inserting "X" at position 1 of `docParAB`. -/
def stepInsertX : Step :=
  .replaceStep 1 1 (StepMap.mk [(1, 0, 1)]) (fun _ => some docParXab)

/-- A content step whose replay fails (`result.failed`). -/
def stepFailing : Step := .replaceStep 2 3 (StepMap.mk [(2, 1, 0)]) (fun _ => none)

/-- A batch whose first step replays fine and whose second step fails. -/
def trWithFailingStep : Transaction :=
  Transaction.mk docParAB docParXab [stepInsertX, stepFailing] true false false false

/-- C7 counterexample: in a batch containing a step that fails to replay,
extraction is not aborted — the record extracted from the step that
replayed successfully is still produced, so the batch's record list is not
empty. -/
theorem C7_counterexample_failing_step_does_not_abort :
    trWithFailingStep.steps.get? 1 = some stepFailing
    ∧ Step.applyTo stepFailing docParXab = none
    ∧ extractChangesFromTransaction trWithFailingStep = [.insert 1 2 "X"]
    ∧ extractChangesFromTransaction trWithFailingStep ≠ [] := by
  refine ⟨rfl, rfl, rfl, ?_⟩
  intro h
  rw [show extractChangesFromTransaction trWithFailingStep = [.insert 1 2 "X"] from rfl] at h
  exact List.noConfusion h

/-- C7 amended: a content step that fails to replay against the running
baseline is skipped — it contributes no record and does not advance the
intermediate baseline document — while extraction continues with the
remaining steps of the batch. -/
theorem C7_amended_failing_step_skipped (doc : PMNode) (sf st : Nat)
    (smap : StepMap) (g : PMNode → Option PMNode) (rest : List Step)
    (hfail : g doc = none) :
    extractGo doc (Step.replaceStep sf st smap g :: rest) = extractGo doc rest := by
  simp only [extractGo, hfail]

/-- C7 witness: the amended statement at the concrete failing step. -/
theorem C7_witness :
    extractGo docParXab [stepFailing] = extractGo docParXab [] :=
  C7_amended_failing_step_skipped docParXab 2 3 (StepMap.mk [(2, 1, 0)])
    (fun _ => none) [] rfl

/-! ## C6 — operation order in the suggestion materializer -/

/-- C6: the materializer does not apply all insert-markings before all
compensating re-insertions: for a batch holding a `Replace` record
followed by an `Insert` record, the re-insertion of the replace's old text
(operation 2) precedes the insert-marking of the `Insert` record
(operation 3) in the transaction's operation order. -/
theorem C6_reinsertion_precedes_marking :
    createSuggestionOps docParAB
        [.replace 1 1 4 "cat" "dog", .insert 10 12 "hi"]
      = [.addInsertMark 1 4, .insertDeleteText 1 "cat", .addInsertMark 10 12]
    ∧ noMarkingAfterReinsertion
        (createSuggestionOps docParAB
          [.replace 1 1 4 "cat" "dog", .insert 10 12 "hi"]) = false
    ∧ (MatOp.insertDeleteText 1 "cat").isReinsertion = true
    ∧ (MatOp.addInsertMark 10 12).isInsertMarking = true :=
  ⟨rfl, rfl, rfl, rfl⟩

/-! ## C9 — a comment-mark-only batch only advances the baseline -/

/-- C9: when a local batch changed the document and every step only adds
or removes the excluded `liveblocksCommentMark` mark, the plugin advances
its baseline to the post-batch document and leaves everything else alone:
the debounce timer handle and the accumulated pending records are
unchanged and no timer or callback effect is produced. -/
theorem C9_comment_mark_only_batch_advances_baseline_only
    (tr : Transaction) (st : PluginState) (oldDoc newDoc : PMNode)
    (freshHandle : Nat)
    (hremote : tr.metaRemote = false)
    (hmode : tr.metaSuggestionMode = false)
    (hthread : tr.metaSuggestionThreadUpdate = false)
    (hcomment : isCommentMarkOnly tr = true) :
    suggestionPluginApply tr st oldDoc newDoc freshHandle
      = (PluginState.mk newDoc st.debounceTimeout st.pendingChanges st.isProcessing, []) := by
  simp [suggestionPluginApply, hremote, hmode, hthread, hcomment]

/-- A batch consisting solely of adding the comment mark. -/
def trCommentOnly : Transaction :=
  Transaction.mk docParAB docParAB
    [.addMark 1 3 (MarkData.mk "liveblocksCommentMark" [("commentId", .str "c1")])
      (fun _ => some docParAB)]
    true false false false

/-- C9 witness: the theorem at a concrete comment-mark-only batch and a
session state with an outstanding timer and pending records. -/
theorem C9_witness :
    suggestionPluginApply trCommentOnly
        (PluginState.mk docParXab (some 7) [.insert 1 2 "X"] false)
        docParXab docParAB 42
      = (PluginState.mk docParAB (some 7) [.insert 1 2 "X"] false, []) :=
  C9_comment_mark_only_batch_advances_baseline_only trCommentOnly
    (PluginState.mk docParXab (some 7) [.insert 1 2 "X"] false)
    docParXab docParAB 42 rfl rfl rfl rfl

/-! ## C3 — the owner / reviewer role disables tracking entirely -/

/-- With no plugins installed the editor loop threads the batches through
untouched and produces no effect. -/
theorem runEditor_no_plugins (doc : PMNode) (batches : List Transaction) :
    runEditor [] doc batches = (batches.foldl (fun _ tr => tr.doc) doc, []) := by
  have hstep : ∀ (acc : PMNode × List PluginState × List PluginEffect × Nat)
      (tr : Transaction),
      runEditorStep [] acc tr = (tr.doc, [], acc.2.2.1, acc.2.2.2 + 1) := by
    intro acc tr
    simp [runEditorStep]
  have aux : ∀ (bs : List Transaction) (d : PMNode) (sts : List PluginState)
      (effs : List PluginEffect) (h : Nat),
      bs.foldl (runEditorStep []) (d, sts, effs, h)
      = if bs.isEmpty then (d, sts, effs, h)
        else (bs.foldl (fun _ tr => tr.doc) d, [], effs, h + bs.length) := by
    intro bs
    induction bs with
    | nil => intro d sts effs h; simp
    | cons tr bs2 ih =>
      intro d sts effs h
      rw [List.foldl_cons, hstep (d, sts, effs, h) tr, ih tr.doc [] effs (h + 1)]
      cases bs2 with
      | nil => simp
      | cons tr2 bs3 =>
        simp only [List.isEmpty_cons, List.foldl_cons, List.length_cons, if_neg
          (by simp : ¬false = true)]
        have : h + 1 + (bs3.length + 1) = h + (bs3.length + 1 + 1) := by omega
        rw [this]
  simp only [runEditor, List.map_nil]
  rw [aux batches doc [] [] 0]
  cases batches with
  | nil => simp
  | cons tr bs => simp

/-- C3: when the current user holds the owner / reviewer capability,
`addProseMirrorPlugins` installs no tracking plugin, and for every
sequence of edit batches the editor applies the edits untouched and
produces zero plugin effects — hence zero timers, zero materializations,
zero suggestion marks, zero node-suggestion attributes and zero
thread-creation requests. -/
theorem C3_owner_role_disables_tracking (opts : SuggestionModeOptions)
    (howner : opts.isOwner = true) :
    addProseMirrorPlugins opts = []
    ∧ ∀ (doc : PMNode) (batches : List Transaction),
        runEditor (addProseMirrorPlugins opts) doc batches
          = (batches.foldl (fun _ tr => tr.doc) doc, []) := by
  have hp : addProseMirrorPlugins opts = [] := by
    simp [addProseMirrorPlugins, howner]
  refine ⟨hp, fun doc batches => ?_⟩
  rw [hp]
  exact runEditor_no_plugins doc batches

/-- A batch restructuring the paragraph of `docParAB` into a heading. -/
def trRestructure : Transaction :=
  Transaction.mk docParAB docHeadingAB
    [.replaceStep 0 4 (StepMap.mk [(0, 4, 4)]) (fun _ => some docHeadingAB)]
    true false false false

/-- C3 witness: a reviewer editing through two concrete batches. -/
theorem C3_witness :
    addProseMirrorPlugins (SuggestionModeOptions.mk true "reviewer") = []
    ∧ runEditor (addProseMirrorPlugins (SuggestionModeOptions.mk true "reviewer"))
        docParAB [trRestructure, trCommentOnly]
      = (docParAB, []) := by
  have h := C3_owner_role_disables_tracking (SuggestionModeOptions.mk true "reviewer") rfl
  exact ⟨h.1, h.2 docParAB [trRestructure, trCommentOnly]⟩

/-! ## C8 — reject of a node suggestion against its JSON snapshot -/

/-- A node suggestion whose snapshot is a genuine `{type, attrs}` object. -/
def docNodeSnapshotOK : PMNode := .block "doc" [] [.block "paragraph"
  [("nodeSuggestionId", .str "n1"),
   ("nodeSuggestionOldData",
    .str (jsonStringify (.obj [("type", .str "heading"), ("attrs", .obj [("level", .num 2)])])))]
  [.text "ab" []]]

/-- A node suggestion whose snapshot is unparseable garbage. -/
def docNodeSnapshotCorrupt : PMNode := .block "doc" [] [.block "paragraph"
  [("nodeSuggestionId", .str "n1"), ("nodeSuggestionOldData", .str "corrupt(")]
  [.text "ab" []]]

/-- A node suggestion whose snapshot parses, names a known type, but has
no `attrs` member. -/
def docNodeSnapshotNoAttrs : PMNode := .block "doc" [] [.block "paragraph"
  [("nodeSuggestionId", .str "n1"),
   ("nodeSuggestionOldData", .str (jsonStringify (.obj [("type", .str "paragraph")])))]
  [.text "ab" []]]

/-- C8: `rejectNodeSuggestion` restores `{type, attrs}` from a genuine
snapshot and degrades to stripping the bookkeeping attributes on
unparseable data — but on a snapshot that parses to a truthy value whose
`type` is known while its `attrs` member is missing, the attrs
destructuring throws (modelled as `none`), so the command is not
throw-free. -/
theorem C8_reject_node_suggestion_cases :
    rejectNodeSuggestion editorSchemaNodeTypes docNodeSnapshotOK "n1"
      = some (.block "doc" [] [.block "heading" [("level", .num 2)] [.text "ab" []]])
    ∧ rejectNodeSuggestion editorSchemaNodeTypes docNodeSnapshotCorrupt "n1"
      = some (.block "doc" [] [.block "paragraph" [] [.text "ab" []]])
    ∧ rejectNodeSuggestion editorSchemaNodeTypes docNodeSnapshotNoAttrs "n1" = none :=
  ⟨rfl, rfl, rfl⟩
/-! ## C5 — pure restructuring defers to node-format detection -/

mutual

/-- Declarative description of the blocks visited by the
`detectNodeFormatChanges` traversal: the allow-listed block nodes reached
from the range `[f, t)` without entering another allow-listed block,
paired with their positions. -/
def blocksInF : List PMNode → Nat → Nat → Nat → List (Nat × PMNode)
  | [], _, _, _ => []
  | c :: rest, f, t, pos =>
    if pos < t then
      let stop := pos + c.nodeSize
      (if stop > f then blocksInN c f t pos else []) ++ blocksInF rest f t stop
    else []

/-- Blocks contributed by one visited node. -/
def blocksInN : PMNode → Nat → Nat → Nat → List (Nat × PMNode)
  | .text _ _, _, _, _ => []
  | .block ty a cs, f, t, pos =>
    if BLOCK_SUGGESTION_TYPES.contains ty then [(pos, PMNode.block ty a cs)]
    else blocksInF cs f t (pos + 1)

end

/-- Doc-level entry point of the block traversal. -/
def blocksIn (doc : PMNode) (f t : Nat) : List (Nat × PMNode) :=
  match doc with
  | .text _ _ => []
  | .block _ _ cs => blocksInF cs f t 0

/-- The comparison `detectNodeFormatChanges` performs per visited block:
look the same position up in the post-state and emit a `NodeFormat`
record exactly when the `{type, attrs}` pair — bookkeeping attributes
stripped — changed. -/
def detectCmp (docAfter : PMNode) (mapping : Mapping) : Nat × PMNode → Option DocChange
  | (pos, nb) =>
    match docAfter.nodeAt pos with
    | none => none
    | some na =>
      let cleanBefore := stripSuggestionAttrs nb.attrsOf
      let cleanAfter := stripSuggestionAttrs na.attrsOf
      if nb.typeName != na.typeName
          || jsonStringify (.obj cleanBefore) != jsonStringify (.obj cleanAfter) then
        some (.nodeFormat (mapping.map pos 1)
          (describeNodeFormatChange nb.typeName cleanBefore na.typeName cleanAfter)
          nb.typeName cleanBefore)
      else none

mutual

/-- The detect traversal is the block traversal followed by the per-block
comparison. -/
theorem detectF_eq_filterMap (docAfter : PMNode) (m : Mapping) :
    ∀ (cs : List PMNode) (f t pos : Nat),
      detectF docAfter m cs f t pos
        = (blocksInF cs f t pos).filterMap (detectCmp docAfter m)
  | [], f, t, pos => by simp [detectF, blocksInF]
  | c :: rest, f, t, pos => by
    by_cases h1 : pos < t
    · simp only [detectF, blocksInF, if_pos h1, List.filterMap_append]
      by_cases h2 : pos + c.nodeSize > f
      · rw [if_pos h2, if_pos h2, detectN_eq_filterMap docAfter m c f t pos,
          detectF_eq_filterMap docAfter m rest f t (pos + c.nodeSize)]
      · rw [if_neg h2, if_neg h2,
          detectF_eq_filterMap docAfter m rest f t (pos + c.nodeSize)]
        simp
    · simp [detectF, blocksInF, h1]

/-- Per-node case of the traversal correspondence. -/
theorem detectN_eq_filterMap (docAfter : PMNode) (m : Mapping) :
    ∀ (c : PMNode) (f t pos : Nat),
      detectN docAfter m c f t pos
        = (blocksInN c f t pos).filterMap (detectCmp docAfter m)
  | .text s marks, f, t, pos => by simp [detectN, blocksInN]
  | .block ty a cs, f, t, pos => by
    by_cases hb : BLOCK_SUGGESTION_TYPES.contains ty
    · cases hna : docAfter.nodeAt pos with
      | none =>
        have hdet : detectN docAfter m (PMNode.block ty a cs) f t pos = [] := by
          simp only [detectN, if_pos hb, hna]
        have hcmp : detectCmp docAfter m (pos, PMNode.block ty a cs) = none := by
          simp only [detectCmp, hna]
        rw [hdet]
        simp only [blocksInN, if_pos hb, List.filterMap_cons, List.filterMap_nil, hcmp]
      | some na =>
        have hdet : detectN docAfter m (PMNode.block ty a cs) f t pos
            = (if (ty != na.typeName
                || jsonStringify (JVal.obj (stripSuggestionAttrs a))
                  != jsonStringify (JVal.obj (stripSuggestionAttrs na.attrsOf))) then
                [DocChange.nodeFormat (m.map pos 1)
                  (describeNodeFormatChange ty (stripSuggestionAttrs a)
                    na.typeName (stripSuggestionAttrs na.attrsOf))
                  ty (stripSuggestionAttrs a)]
              else []) := by
          simp only [detectN, if_pos hb, hna]
        have hcmp : detectCmp docAfter m (pos, PMNode.block ty a cs)
            = (if (ty != na.typeName
                || jsonStringify (JVal.obj (stripSuggestionAttrs a))
                  != jsonStringify (JVal.obj (stripSuggestionAttrs na.attrsOf))) then
                some (DocChange.nodeFormat (m.map pos 1)
                  (describeNodeFormatChange ty (stripSuggestionAttrs a)
                    na.typeName (stripSuggestionAttrs na.attrsOf))
                  ty (stripSuggestionAttrs a))
              else none) := by
          simp only [detectCmp, hna, PMNode.typeName, PMNode.attrsOf]
        rw [hdet]
        simp only [blocksInN, if_pos hb, List.filterMap_cons, List.filterMap_nil, hcmp]
        cases hc : (ty != na.typeName
            || jsonStringify (JVal.obj (stripSuggestionAttrs a))
              != jsonStringify (JVal.obj (stripSuggestionAttrs na.attrsOf))) <;>
          simp [hc]
    · simp only [detectN, blocksInN, if_neg hb, hb]
      rw [detectF_eq_filterMap docAfter m cs f t (pos + 1)]
      simp

end

/-- When every replaced range of the step map has equal non-empty deleted
and inserted text, the forEach pass produces no record and leaves
`anyTextChange` unset. -/
theorem processQuads_all_equal (docB docA : PMNode) (mb me : Mapping) :
    ∀ qs : List (Nat × Nat × Nat × Nat),
      (∀ q ∈ qs, q.1 < q.2.1 ∧ q.2.2.1 < q.2.2.2
        ∧ 0 < (docB.textBetween q.1 q.2.1 "\n").length
        ∧ docB.textBetween q.1 q.2.1 "\n" = docA.textBetween q.2.2.1 q.2.2.2 "\n") →
      processQuads docB docA mb me qs = ([], false) := by
  intro qs
  induction qs with
  | nil => intro _; rfl
  | cons q rest ih =>
    intro h
    obtain ⟨f, t, nf, nt⟩ := q
    have hq := h (f, t, nf, nt) (List.mem_cons_self _ _)
    obtain ⟨hft, hnfnt, hlen, heq⟩ := hq
    have hrest := ih (fun q hq2 => h q (List.mem_cons_of_mem _ hq2))
    simp only [processQuads, hrest]
    simp [hft, hnfnt, ← heq, hlen]
  
/-- C5: a content-replacement step whose every replaced range has equal
non-empty deleted and inserted text (pure restructuring) contributes no
text-level record — its entire contribution is the node-format detection
pass — and that pass emits one `NodeFormat` record per traversed
allow-listed block whose stripped `{type, attrs}` changed between the
step's pre- and post-state. -/
theorem C5_equal_text_replacement_defers_to_node_format
    (doc docAfter : PMNode) (sf st : Nat) (smap : StepMap)
    (g : PMNode → Option PMNode) (rest : List Step)
    (happly : g doc = some docAfter)
    (hchanged : pmEq doc docAfter = false)
    (hquads : ∀ q ∈ smap.quads, q.1 < q.2.1 ∧ q.2.2.1 < q.2.2.2
      ∧ 0 < (doc.textBetween q.1 q.2.1 "\n").length
      ∧ doc.textBetween q.1 q.2.1 "\n" = docAfter.textBetween q.2.2.1 q.2.2.2 "\n") :
    extractGo doc (Step.replaceStep sf st smap g :: rest)
      = detectNodeFormatChanges doc docAfter sf st (Mapping.mk (rest.map Step.getMap))
        ++ extractGo docAfter rest
    ∧ ∀ (docB docA : PMNode) (f t : Nat) (m : Mapping),
        detectNodeFormatChanges docB docA f t m
          = (blocksIn docB f t).filterMap (detectCmp docA m) := by
  constructor
  · have hpq := processQuads_all_equal doc docAfter
      (Mapping.mk (smap :: rest.map Step.getMap)) (Mapping.mk (rest.map Step.getMap))
      smap.quads hquads
    simp only [extractGo, happly, hpq, hchanged]
    simp
  · intro docB docA f t m
    cases docB with
    | text s marks => rfl
    | block ty a cs =>
      exact detectF_eq_filterMap docA m cs f t 0

/-- C5 witness: replacing a paragraph with a heading around the identical
text "ab" extracts exactly one `NodeFormat` record. -/
theorem C5_witness :
    extractGo docParAB
        [Step.replaceStep 0 4 (StepMap.mk [(0, 4, 4)]) (fun _ => some docHeadingAB)]
      = [DocChange.nodeFormat 0 "Heading 1" "paragraph" []] :=
  ((C5_equal_text_replacement_defers_to_node_format docParAB docHeadingAB 0 4
    (StepMap.mk [(0, 4, 4)]) (fun _ => some docHeadingAB) [] rfl rfl
    (by decide)).1).trans rfl
/-! ## C2 — accept / reject of inline suggestions

The command collects one operation per suggestion mark, in document
order, and applies them bottom-up. The plan: normalize the collected
positions to fragment-relative ones, show an operation shifted past a
sibling leaves it alone, and reduce the reverse-order application to an
independent per-text-node transformation. -/

/-- Position of a collected operation. -/
def opPos : SugOp → Nat
  | .removeMarkOfType p _ _ => p
  | .deleteSpan p _ => p

/-- Extent of a collected operation. -/
def opSize : SugOp → Nat
  | .removeMarkOfType _ sz _ => sz
  | .deleteSpan _ sz => sz

/-- Shift an operation right by `k` positions. -/
def SugOp.shift (k : Nat) : SugOp → SugOp
  | .removeMarkOfType p sz mty => .removeMarkOfType (p + k) sz mty
  | .deleteSpan p sz => .deleteSpan (p + k) sz

/-- Shift a list of operations. -/
def shiftOps (k : Nat) (ops : List SugOp) : List SugOp := ops.map (SugOp.shift k)

/-- Apply one collected operation at fragment level. -/
def applySugOpF (cs : List PMNode) : SugOp → List PMNode
  | .removeMarkOfType p sz mty => removeMarkF cs p (p + sz) mty
  | .deleteSpan p sz => deleteF cs p (p + sz)

/-- Apply a list of operations at fragment level, first to last. -/
def applyOpsF (ops : List SugOp) (cs : List PMNode) : List PMNode :=
  ops.foldl applySugOpF cs

/-- Applying operations to a block-rooted document acts on its content
fragment. -/
theorem foldl_applySugOp_block (ops : List SugOp) :
    ∀ (ty : String) (a : Attrs) (cs : List PMNode),
      ops.foldl applySugOp (.block ty a cs) = .block ty a (applyOpsF ops cs) := by
  induction ops with
  | nil => intro ty a cs; rfl
  | cons op rest ih =>
    intro ty a cs
    have hone : applySugOp (.block ty a cs) op = .block ty a (applySugOpF cs op) := by
      cases op <;> rfl
    simp only [List.foldl_cons, hone, applyOpsF, ih]

/-- A `removeMark` range shifted past a sibling node leaves it alone. -/
theorem removeMarkF_shift (c : PMNode) (rest : List PMNode) (p sz : Nat) (mty : String) :
    removeMarkF (c :: rest) (p + c.nodeSize) (p + c.nodeSize + sz) mty
      = c :: removeMarkF rest p (p + sz) mty := by
  rcases Nat.eq_zero_or_pos sz with h0 | h0
  · subst h0
    have h1 : removeMarkF (c :: rest) (p + c.nodeSize) (p + c.nodeSize + 0) mty
        = c :: rest := by
      simp [removeMarkF]
    rw [h1]
    cases rest with
    | nil => simp [removeMarkF]
    | cons c2 r2 => simp [removeMarkF]
  · have hne : ¬(p + c.nodeSize + sz ≤ p + c.nodeSize) := by omega
    have hge : c.nodeSize ≤ p + c.nodeSize := by omega
    simp only [removeMarkF, if_neg hne, if_pos hge]
    have e1 : p + c.nodeSize - c.nodeSize = p := by omega
    have e2 : p + c.nodeSize + sz - c.nodeSize = p + sz := by omega
    rw [e1, e2]

/-- A `delete` range shifted past a sibling node leaves it alone. -/
theorem deleteF_shift (c : PMNode) (rest : List PMNode) (p sz : Nat) :
    deleteF (c :: rest) (p + c.nodeSize) (p + c.nodeSize + sz)
      = c :: deleteF rest p (p + sz) := by
  rcases Nat.eq_zero_or_pos sz with h0 | h0
  · subst h0
    have h1 : deleteF (c :: rest) (p + c.nodeSize) (p + c.nodeSize + 0) = c :: rest := by
      simp [deleteF]
    rw [h1]
    cases rest with
    | nil => simp [deleteF]
    | cons c2 r2 => simp [deleteF]
  · have hne : ¬(p + c.nodeSize + sz ≤ p + c.nodeSize) := by omega
    have hge : c.nodeSize ≤ p + c.nodeSize := by omega
    simp only [deleteF, if_neg hne, if_pos hge]
    have e1 : p + c.nodeSize - c.nodeSize = p := by omega
    have e2 : p + c.nodeSize + sz - c.nodeSize = p + sz := by omega
    rw [e1, e2]

/-- One operation shifted past a sibling node leaves it alone. -/
theorem applySugOpF_shift (c : PMNode) (rest : List PMNode) (op : SugOp) :
    applySugOpF (c :: rest) (op.shift c.nodeSize) = c :: applySugOpF rest op := by
  cases op with
  | removeMarkOfType p sz mty =>
    simp only [SugOp.shift, applySugOpF]
    exact removeMarkF_shift c rest p sz mty
  | deleteSpan p sz =>
    simp only [SugOp.shift, applySugOpF]
    exact deleteF_shift c rest p sz

/-- A list of operations shifted past a sibling node leaves it alone. -/
theorem applyOpsF_shift (ops : List SugOp) :
    ∀ (c : PMNode) (rest : List PMNode),
      applyOpsF (shiftOps c.nodeSize ops) (c :: rest) = c :: applyOpsF ops rest := by
  induction ops with
  | nil => intro c rest; rfl
  | cons op rest2 ih =>
    intro c rest
    simp only [shiftOps, List.map_cons, applyOpsF, List.foldl_cons,
      applySugOpF_shift c rest op]
    exact ih c (applySugOpF rest op)

/-- Operations are ordered by descending, pairwise disjoint spans
(the order in which the command applies them). -/
def opsDescending (ops : List SugOp) : Prop :=
  List.Chain' (fun o1 o2 => opPos o2 + opSize o2 ≤ opPos o1) ops

/-- Fragment sizes add over append. -/
theorem sizeF_append : ∀ (l1 l2 : List PMNode),
    PMNode.sizeF (l1 ++ l2) = PMNode.sizeF l1 + PMNode.sizeF l2 := by
  intro l1 l2
  induction l1 with
  | nil => simp [PMNode.sizeF]
  | cons c r ih =>
    show c.nodeSize + PMNode.sizeF (r ++ l2) = c.nodeSize + PMNode.sizeF r + PMNode.sizeF l2
    rw [ih]
    omega

/-- Size contributed by one optional text piece of a node split. -/
theorem sizeF_textPiece (s0 : String) (m : List MarkData) :
    PMNode.sizeF (if s0.length = 0 then [] else [PMNode.text s0 m]) = s0.length := by
  by_cases h : s0.length = 0 <;> simp [h, PMNode.sizeF, PMNode.nodeSize]

mutual

/-- Removing a mark preserves the size of a fragment. -/
theorem sizeF_removeMarkF : ∀ (cs : List PMNode) (f t : Nat) (mty : String),
    PMNode.sizeF (removeMarkF cs f t mty) = PMNode.sizeF cs
  | [], f, t, mty => rfl
  | c :: rest, f, t, mty => by
    by_cases h1 : t ≤ f
    · simp [removeMarkF, h1]
    · by_cases h2 : c.nodeSize ≤ f
      · simp only [removeMarkF, if_neg h1, if_pos h2, PMNode.sizeF]
        rw [sizeF_removeMarkF rest (f - c.nodeSize) (t - c.nodeSize) mty]
      · simp only [removeMarkF, if_neg h1, if_neg h2]
        rw [sizeF_append, sizeF_removeMarkN c f t mty (by omega) (by omega),
          sizeF_removeMarkF rest (f - c.nodeSize) (t - c.nodeSize) mty]
        rfl

/-- Removing a mark from the overlapped part of one node preserves its
size. -/
theorem sizeF_removeMarkN : ∀ (c : PMNode) (f t : Nat) (mty : String),
    f < c.nodeSize → f < t → PMNode.sizeF (removeMarkN c f t mty) = c.nodeSize
  | .text s marks, f, t, mty, hf, hft => by
    simp only [PMNode.nodeSize] at hf
    simp only [removeMarkN]
    rw [sizeF_append, sizeF_append, sizeF_textPiece, sizeF_textPiece, sizeF_textPiece]
    have la : (String.mk (s.data.take f)).length = f := by
      show (s.data.take f).length = f
      rw [List.length_take]
      have : s.data.length = s.length := rfl
      omega
    have lb : (String.mk ((s.data.drop f).take (min t s.length - f))).length
        = min t s.length - f := by
      show ((s.data.drop f).take (min t s.length - f)).length = min t s.length - f
      rw [List.length_take, List.length_drop]
      have : s.data.length = s.length := rfl
      omega
    have lc : (String.mk (s.data.drop (min t s.length))).length
        = s.length - min t s.length := by
      show (s.data.drop (min t s.length)).length = s.length - min t s.length
      rw [List.length_drop]
      rfl
    rw [la, lb, lc]
    show f + (min t s.length - f) + (s.length - min t s.length) = s.length
    omega
  | .block ty a cs, f, t, mty, hf, hft => by
    simp only [removeMarkN, PMNode.sizeF, PMNode.nodeSize]
    rw [sizeF_removeMarkF cs (f - 1) (t - 1) mty]
    omega

end

mutual

/-- A range deletion keeps at least the content strictly below its start
position. -/
theorem sizeF_deleteF_ge : ∀ (cs : List PMNode) (f t : Nat),
    min f (PMNode.sizeF cs) ≤ PMNode.sizeF (deleteF cs f t)
  | [], f, t => by simp [deleteF, PMNode.sizeF]
  | c :: rest, f, t => by
    by_cases h1 : t ≤ f
    · simp only [deleteF, if_pos h1]
      omega
    · by_cases h2 : c.nodeSize ≤ f
      · simp only [deleteF, if_neg h1, if_pos h2, PMNode.sizeF]
        have := sizeF_deleteF_ge rest (f - c.nodeSize) (t - c.nodeSize)
        omega
      · simp only [deleteF, if_neg h1, if_neg h2]
        rw [sizeF_append]
        have hn := sizeF_deleteN_ge c f t (by omega) (by omega)
        omega

/-- Deleting the overlapped part of one node keeps at least its content
strictly below the range's start. -/
theorem sizeF_deleteN_ge : ∀ (c : PMNode) (f t : Nat),
    f < c.nodeSize → f < t → f ≤ PMNode.sizeF (deleteN c f t)
  | .text s marks, f, t, hf, hft => by
    simp only [PMNode.nodeSize] at hf
    simp only [deleteN]
    have hfl : (s.data.take f).length = f := by
      rw [List.length_take]
      have : s.data.length = s.length := rfl
      omega
    by_cases hk : (String.mk (s.data.take f ++ s.data.drop t)).length = 0
    · have : (s.data.take f ++ s.data.drop t).length = 0 := hk
      rw [List.length_append, hfl] at this
      simp only [if_pos hk, PMNode.sizeF]
      omega
    · simp only [if_neg hk, PMNode.sizeF, PMNode.nodeSize]
      show f ≤ (s.data.take f ++ s.data.drop t).length + 0
      rw [List.length_append, hfl]
      omega
  | .block ty a cs, f, t, hf, hft => by
    simp only [PMNode.nodeSize] at hf
    simp only [deleteN, PMNode.sizeF, PMNode.nodeSize]
    have := sizeF_deleteF_ge cs (f - 1) (t - 1)
    omega

end

/-- Applying one operation alters neither any content strictly below the
operation's span nor more than the span's extent: sizes evolve so that a
lower disjoint span's bound keeps holding. -/
theorem sizeF_applySugOpF_ge (cs : List PMNode) (op : SugOp) :
    min (opPos op) (PMNode.sizeF cs) ≤ PMNode.sizeF (applySugOpF cs op) := by
  cases op with
  | removeMarkOfType p sz mty =>
    simp only [applySugOpF, opPos, sizeF_removeMarkF]
    omega
  | deleteSpan p sz =>
    simp only [applySugOpF, opPos]
    exact sizeF_deleteF_ge cs p (p + sz)

/-- An in-bounds operation shifted one position into a block applies to
the block's content. -/
theorem applySugOpF_into_block (ty : String) (a : Attrs) (cs : List PMNode)
    (rest : List PMNode) (op : SugOp)
    (hsz : 1 ≤ opSize op) (hub : opPos op + opSize op ≤ 1 + PMNode.sizeF cs) :
    applySugOpF (.block ty a cs :: rest) (op.shift 1)
      = .block ty a (applySugOpF cs op) :: rest := by
  have hblock : (PMNode.block ty a cs).nodeSize = 2 + PMNode.sizeF cs := rfl
  cases op with
  | removeMarkOfType p sz mty =>
    simp only [opPos, opSize] at hsz hub
    simp only [SugOp.shift, applySugOpF]
    have hne : ¬(p + 1 + sz ≤ p + 1) := by omega
    have hne2 : ¬((PMNode.block ty a cs).nodeSize ≤ p + 1) := by
      rw [hblock]; omega
    simp only [removeMarkF, if_neg hne, if_neg hne2, removeMarkN]
    have hz1 : p + 1 - 1 = p := by omega
    have hz2 : p + 1 + sz - 1 = p + sz := by omega
    have hz3 : p + 1 - (PMNode.block ty a cs).nodeSize = 0 := by rw [hblock]; omega
    have hz4 : p + 1 + sz - (PMNode.block ty a cs).nodeSize = 0 := by rw [hblock]; omega
    rw [hz1, hz2, hz3, hz4]
    cases rest with
    | nil => simp [removeMarkF]
    | cons c2 r2 => simp [removeMarkF]
  | deleteSpan p sz =>
    simp only [opPos, opSize] at hsz hub
    simp only [SugOp.shift, applySugOpF]
    have hne : ¬(p + 1 + sz ≤ p + 1) := by omega
    have hne2 : ¬((PMNode.block ty a cs).nodeSize ≤ p + 1) := by
      rw [hblock]; omega
    simp only [deleteF, if_neg hne, if_neg hne2, deleteN]
    have hz1 : p + 1 - 1 = p := by omega
    have hz2 : p + 1 + sz - 1 = p + sz := by omega
    have hz3 : p + 1 - (PMNode.block ty a cs).nodeSize = 0 := by rw [hblock]; omega
    have hz4 : p + 1 + sz - (PMNode.block ty a cs).nodeSize = 0 := by rw [hblock]; omega
    rw [hz1, hz2, hz3, hz4]
    cases rest with
    | nil => simp [deleteF]
    | cons c2 r2 => simp [deleteF]

/-- A descending-disjoint list of operations whose head fits the block's
content, shifted one position in, applies to the block's content: later
(lower) operations stay in bounds because an application never disturbs
the content below its span. -/
theorem applyOpsF_into_block :
    ∀ (ops : List SugOp) (ty : String) (a : Attrs) (cs : List PMNode)
      (rest : List PMNode),
      (∀ op ∈ ops, 1 ≤ opSize op) →
      opsDescending ops →
      (∀ op0 ∈ ops.head?, opPos op0 + opSize op0 ≤ 1 + PMNode.sizeF cs) →
      applyOpsF (shiftOps 1 ops) (.block ty a cs :: rest)
        = .block ty a (applyOpsF ops cs) :: rest := by
  intro ops
  induction ops with
  | nil => intro ty a cs rest _ _ _; rfl
  | cons op tail ih =>
    intro ty a cs rest hsz hdesc hhd
    have hop1 : 1 ≤ opSize op := hsz op (List.mem_cons_self _ _)
    have hopb : opPos op + opSize op ≤ 1 + PMNode.sizeF cs := by
      exact hhd op (by simp)
    simp only [shiftOps, List.map_cons, applyOpsF, List.foldl_cons,
      applySugOpF_into_block ty a cs rest op hop1 hopb]
    have htail : applyOpsF (shiftOps 1 tail) (.block ty a (applySugOpF cs op) :: rest)
        = .block ty a (applyOpsF tail (applySugOpF cs op)) :: rest := by
      apply ih ty a (applySugOpF cs op) rest
        (fun o ho => hsz o (List.mem_cons_of_mem _ ho))
      · exact hdesc.tail
      · intro op2 hop2
        cases tail with
        | nil => simp at hop2
        | cons op2h t2 =>
          have heq : op2h = op2 := by simpa using hop2
          rw [← heq]
          have hrel : opPos op2h + opSize op2h ≤ opPos op := (List.chain'_cons.mp hdesc).1
          have hge := sizeF_applySugOpF_ge cs op
          omega
    exact htail
/-- Is this mark a suggestion mark carrying the given suggestion id? -/
def isSugMarkForId (id : String) (m : MarkData) : Bool :=
  markHasSuggestionId m id && (m.ty == "suggestionInsert" || m.ty == "suggestionDelete")

mutual

/-- Well-formedness of a document for one suggestion id, as ProseMirror
guarantees it: text nodes are non-empty and no text node carries more
than one suggestion mark with that id (mark sets hold at most one mark
per type, and the insert / delete marks of one id never share a node). -/
def wfSugN (id : String) : PMNode → Bool
  | .text s marks =>
    decide (1 ≤ s.length) && decide ((marks.filter (isSugMarkForId id)).length ≤ 1)
  | .block _ _ cs => wfSugF id cs

/-- Fragment-wise well-formedness. -/
def wfSugF (id : String) : List PMNode → Bool
  | [] => true
  | c :: rest => wfSugN id c && wfSugF id rest

end

/-- Document-level well-formedness. -/
def wfSugDoc (id : String) : PMNode → Bool
  | .text s marks => wfSugN id (.text s marks)
  | .block _ _ cs => wfSugF id cs

/-- The per-text-node effect of `acceptSuggestion`: a span marked
`suggestionDelete` with the id is deleted; a span marked
`suggestionInsert` with the id keeps its text and loses that mark type;
any other span is untouched. -/
def acceptTextSpec (id : String) (s : String) (marks : List MarkData) : List PMNode :=
  if marks.any (fun m => markHasSuggestionId m id && m.ty == "suggestionInsert") then
    [.text s (marks.filter (fun m => m.ty != "suggestionInsert"))]
  else if marks.any (fun m => markHasSuggestionId m id && m.ty == "suggestionDelete") then []
  else [.text s marks]

/-- The per-text-node effect of `rejectSuggestion`: a span marked
`suggestionInsert` with the id is deleted; a span marked
`suggestionDelete` with the id keeps its text and loses that mark type;
any other span is untouched. -/
def rejectTextSpec (id : String) (s : String) (marks : List MarkData) : List PMNode :=
  if marks.any (fun m => markHasSuggestionId m id && m.ty == "suggestionInsert") then []
  else if marks.any (fun m => markHasSuggestionId m id && m.ty == "suggestionDelete") then
    [.text s (marks.filter (fun m => m.ty != "suggestionDelete"))]
  else [.text s marks]

mutual

/-- Per-node map realising `acceptSuggestion` (block structure kept). -/
def acceptSpecN (id : String) : PMNode → List PMNode
  | .text s marks => acceptTextSpec id s marks
  | .block ty a cs => [.block ty a (acceptSpecF id cs)]

/-- Fragment-wise per-node map of `acceptSuggestion`. -/
def acceptSpecF (id : String) : List PMNode → List PMNode
  | [] => []
  | c :: rest => acceptSpecN id c ++ acceptSpecF id rest

end

mutual

/-- Per-node map realising `rejectSuggestion`. -/
def rejectSpecN (id : String) : PMNode → List PMNode
  | .text s marks => rejectTextSpec id s marks
  | .block ty a cs => [.block ty a (rejectSpecF id cs)]

/-- Fragment-wise per-node map of `rejectSuggestion`. -/
def rejectSpecF (id : String) : List PMNode → List PMNode
  | [] => []
  | c :: rest => rejectSpecN id c ++ rejectSpecF id rest

end

/-- Document-level per-node maps. -/
def acceptSpecDoc (id : String) : PMNode → PMNode
  | .text s m => .text s m
  | .block ty a cs => .block ty a (acceptSpecF id cs)

/-- Document-level per-node map for reject. -/
def rejectSpecDoc (id : String) : PMNode → PMNode
  | .text s m => .text s m
  | .block ty a cs => .block ty a (rejectSpecF id cs)

/-- A mark list with no suggestion mark for the id produces nothing: no
collected operation and no satisfied `any` predicate. -/
theorem sugMarks_none (id : String) (opIns opDel : List SugOp) :
    ∀ marks : List MarkData, (marks.filter (isSugMarkForId id)).length = 0 →
      marks.flatMap (fun mark =>
        if markHasSuggestionId mark id then
          if mark.ty == "suggestionInsert" then opIns
          else if mark.ty == "suggestionDelete" then opDel
          else []
        else [])
        = []
      ∧ marks.any (fun m => markHasSuggestionId m id && m.ty == "suggestionInsert") = false
      ∧ marks.any (fun m => markHasSuggestionId m id && m.ty == "suggestionDelete") = false := by
  intro marks
  induction marks with
  | nil => intro _; exact ⟨rfl, rfl, rfl⟩
  | cons mk2 rest ih =>
    intro h
    have hmk : isSugMarkForId id mk2 = false := by
      by_cases hm : isSugMarkForId id mk2 = true
      · rw [List.filter_cons, if_pos hm] at h
        simp at h
      · simpa using hm
    have hrest : (rest.filter (isSugMarkForId id)).length = 0 := by
      rw [List.filter_cons, hmk] at h
      simpa using h
    obtain ⟨h1, h2, h3⟩ := ih hrest
    simp only [isSugMarkForId, Bool.and_eq_false_iff, Bool.or_eq_false_iff] at hmk
    refine ⟨?_, ?_, ?_⟩
    · rw [List.flatMap_cons, h1]
      rcases hmk with hno | ⟨hni, hnd⟩
      · simp [hno]
      · simp [hni, hnd]
    · rw [List.any_cons, h2]
      rcases hmk with hno | ⟨hni, hnd⟩
      · simp [hno]
      · simp [hni]
    · rw [List.any_cons, h3]
      rcases hmk with hno | ⟨hni, hnd⟩
      · simp [hno]
      · simp [hnd]

/-- Characterization of the operations collected from one text node's
marks, given at most one suggestion mark with the id: the insert case,
the delete case, or nothing; the two `any` predicates never both hold. -/
theorem sugMarks_char (id : String) (opIns opDel : List SugOp) :
    ∀ marks : List MarkData, (marks.filter (isSugMarkForId id)).length ≤ 1 →
      marks.flatMap (fun mark =>
        if markHasSuggestionId mark id then
          if mark.ty == "suggestionInsert" then opIns
          else if mark.ty == "suggestionDelete" then opDel
          else []
        else [])
        = (if marks.any (fun m => markHasSuggestionId m id && m.ty == "suggestionInsert") then opIns
           else if marks.any (fun m => markHasSuggestionId m id && m.ty == "suggestionDelete") then opDel
           else []) := by
  intro marks
  induction marks with
  | nil => intro _; rfl
  | cons mk2 rest ih =>
    intro h
    by_cases hm : isSugMarkForId id mk2 = true
    · have hrest : (rest.filter (isSugMarkForId id)).length = 0 := by
        rw [List.filter_cons, if_pos hm] at h
        simp only [List.length_cons] at h
        omega
      obtain ⟨h1, h2, h3⟩ := sugMarks_none id opIns opDel rest hrest
      simp only [isSugMarkForId, Bool.and_eq_true, Bool.or_eq_true, beq_iff_eq] at hm
      obtain ⟨hhas, hty⟩ := hm
      rw [List.flatMap_cons, h1, List.any_cons, List.any_cons, h2, h3]
      rcases hty with hins | hdel
      · simp [hhas, hins]
      · have hnotins : (mk2.ty == "suggestionInsert") = false := by
          simp [hdel]
        simp [hhas, hdel, hnotins]
    · have hmk : isSugMarkForId id mk2 = false := by simpa using hm
      have hrest : (rest.filter (isSugMarkForId id)).length ≤ 1 := by
        rw [List.filter_cons, hmk] at h
        simpa using h
      simp only [isSugMarkForId, Bool.and_eq_false_iff, Bool.or_eq_false_iff] at hmk
      rw [List.flatMap_cons, List.any_cons, List.any_cons, ih hrest]
      rcases hmk with hno | ⟨hni, hnd⟩
      · simp [hno]
      · simp [hni, hnd]
/-- Shifting distributes over append. -/
theorem shiftOps_append (b : Nat) (l1 l2 : List SugOp) :
    shiftOps b (l1 ++ l2) = shiftOps b l1 ++ shiftOps b l2 :=
  List.map_append _ _ _

/-- Shifts compose. -/
theorem shiftOps_shiftOps (a b : Nat) (l : List SugOp) :
    shiftOps a (shiftOps b l) = shiftOps (b + a) l := by
  induction l with
  | nil => rfl
  | cons op rest ih =>
    simp only [shiftOps, List.map_cons] at ih ⊢
    rw [ih]
    cases op <;> simp [SugOp.shift, Nat.add_assoc]

/-- Shifting commutes with reversal. -/
theorem shiftOps_reverse (b : Nat) (l : List SugOp) :
    (shiftOps b l).reverse = shiftOps b l.reverse :=
  (List.map_reverse _ _).symm

/-- Applying an appended list is sequential application. -/
theorem applyOpsF_append (l1 l2 : List SugOp) (cs : List PMNode) :
    applyOpsF (l1 ++ l2) cs = applyOpsF l2 (applyOpsF l1 cs) :=
  List.foldl_append _ _ _ _

mutual

/-- Collected accept operations at base `b` are the base-0 operations
shifted by `b`. -/
theorem collectAcceptN_shift (id : String) :
    ∀ (c : PMNode) (b : Nat), collectAcceptN id c b = shiftOps b (collectAcceptN id c 0)
  | .text s marks, b => by
    simp only [collectAcceptN]
    induction marks with
    | nil => rfl
    | cons mk2 rest ih =>
      rw [List.flatMap_cons, List.flatMap_cons, shiftOps_append, ← ih]
      congr 1
      by_cases h1 : markHasSuggestionId mk2 id
      · by_cases h2 : mk2.ty == "suggestionInsert"
        · simp [h1, h2, shiftOps, SugOp.shift]
        · by_cases h3 : mk2.ty == "suggestionDelete"
          · simp [h1, h2, h3, shiftOps, SugOp.shift]
          · simp [h1, h2, h3, shiftOps]
      · simp [h1, shiftOps]
  | .block ty a cs, b => by
    show collectAcceptF id cs (b + 1) = shiftOps b (collectAcceptF id cs (0 + 1))
    rw [collectAcceptF_shift id cs (b + 1), collectAcceptF_shift id cs (0 + 1),
      shiftOps_shiftOps]
    have : 0 + 1 + b = b + 1 := by omega
    rw [this]

/-- Fragment version of the shift normalization. -/
theorem collectAcceptF_shift (id : String) :
    ∀ (cs : List PMNode) (b : Nat), collectAcceptF id cs b = shiftOps b (collectAcceptF id cs 0)
  | [], b => rfl
  | c :: rest, b => by
    show collectAcceptN id c b ++ collectAcceptF id rest (b + c.nodeSize)
      = shiftOps b (collectAcceptN id c 0 ++ collectAcceptF id rest (0 + c.nodeSize))
    rw [shiftOps_append, collectAcceptN_shift id c b,
      collectAcceptF_shift id rest (b + c.nodeSize),
      collectAcceptF_shift id rest (0 + c.nodeSize), shiftOps_shiftOps]
    have : 0 + c.nodeSize + b = b + c.nodeSize := by omega
    rw [this]

end

mutual

/-- Bounds of the collected accept operations: they start at or after the
base, have positive extent (text nodes are non-empty) and stay within the
node's span. -/
theorem collectAcceptN_bounds (id : String) :
    ∀ (c : PMNode), wfSugN id c = true → ∀ (b : Nat), ∀ op ∈ collectAcceptN id c b,
      b ≤ opPos op ∧ 1 ≤ opSize op ∧ opPos op + opSize op ≤ b + c.nodeSize
  | .text s marks, hwf, b, op, hop => by
    simp only [wfSugN, Bool.and_eq_true, decide_eq_true_eq] at hwf
    simp only [collectAcceptN, List.mem_flatMap] at hop
    obtain ⟨mark, _, hopin⟩ := hop
    by_cases h1 : markHasSuggestionId mark id
    · by_cases h2 : mark.ty == "suggestionInsert"
      · simp only [h1, h2, if_true, List.mem_singleton] at hopin
        subst hopin
        simp only [opPos, opSize, PMNode.nodeSize]
        omega
      · by_cases h3 : mark.ty == "suggestionDelete"
        · simp [h1, h2, h3] at hopin
          subst hopin
          simp only [opPos, opSize, PMNode.nodeSize]
          omega
        · simp [h1, h2, h3] at hopin
    · simp [h1] at hopin
  | .block ty a cs, hwf, b, op, hop => by
    have hwf2 : wfSugF id cs = true := hwf
    have := collectAcceptF_bounds id cs hwf2 (b + 1) op hop
    simp only [PMNode.nodeSize]
    omega

/-- Fragment version of the bounds. -/
theorem collectAcceptF_bounds (id : String) :
    ∀ (cs : List PMNode), wfSugF id cs = true → ∀ (b : Nat), ∀ op ∈ collectAcceptF id cs b,
      b ≤ opPos op ∧ 1 ≤ opSize op ∧ opPos op + opSize op ≤ b + PMNode.sizeF cs
  | [], _, b, op, hop => by simp [collectAcceptF] at hop
  | c :: rest, hwf, b, op, hop => by
    simp only [wfSugF, Bool.and_eq_true] at hwf
    simp only [collectAcceptF, List.mem_append] at hop
    rcases hop with hop | hop
    · have := collectAcceptN_bounds id c hwf.1 b op hop
      simp only [PMNode.sizeF]
      omega
    · have := collectAcceptF_bounds id rest hwf.2 (b + c.nodeSize) op hop
      simp only [PMNode.sizeF]
      omega

end

mutual

/-- The collected accept operations are in ascending span order. -/
theorem collectAcceptN_asc (id : String) :
    ∀ (c : PMNode), wfSugN id c = true → ∀ (b : Nat),
      List.Chain' (fun o1 o2 => opPos o1 + opSize o1 ≤ opPos o2) (collectAcceptN id c b)
  | .text s marks, hwf, b => by
    simp only [wfSugN, Bool.and_eq_true, decide_eq_true_eq] at hwf
    simp only [collectAcceptN]
    rw [sugMarks_char id _ _ marks hwf.2]
    by_cases hins : marks.any (fun m => markHasSuggestionId m id && m.ty == "suggestionInsert")
    · simp [hins]
    · by_cases hdel : marks.any (fun m => markHasSuggestionId m id && m.ty == "suggestionDelete")
      · simp [hins, hdel]
      · simp [hins, hdel]
  | .block ty a cs, hwf, b => by
    have hwf2 : wfSugF id cs = true := hwf
    exact collectAcceptF_asc id cs hwf2 (b + 1)

/-- Fragment version of the ordering. -/
theorem collectAcceptF_asc (id : String) :
    ∀ (cs : List PMNode), wfSugF id cs = true → ∀ (b : Nat),
      List.Chain' (fun o1 o2 => opPos o1 + opSize o1 ≤ opPos o2) (collectAcceptF id cs b)
  | [], _, b => List.chain'_nil
  | c :: rest, hwf, b => by
    simp only [wfSugF, Bool.and_eq_true] at hwf
    simp only [collectAcceptF]
    rw [List.chain'_append]
    refine ⟨collectAcceptN_asc id c hwf.1 b, collectAcceptF_asc id rest hwf.2 (b + c.nodeSize), ?_⟩
    intro x hx y hy
    have hxm := List.mem_of_mem_getLast? hx
    have hym := List.mem_of_mem_head? hy
    have hbx := collectAcceptN_bounds id c hwf.1 b x hxm
    have hby := collectAcceptF_bounds id rest hwf.2 (b + c.nodeSize) y hym
    omega

end
/-- An empty range is a no-op for mark removal. -/
theorem removeMarkF_zero (rest : List PMNode) (mty : String) :
    removeMarkF rest 0 0 mty = rest := by
  cases rest <;> simp [removeMarkF]

/-- An empty range is a no-op for deletion. -/
theorem deleteF_zero (rest : List PMNode) : deleteF rest 0 0 = rest := by
  cases rest <;> simp [deleteF]

/-- Removing a mark type over exactly one leading text node filters that
type out of its mark set and touches nothing else. -/
theorem removeMarkF_whole_text (s : String) (marks : List MarkData)
    (rest : List PMNode) (mty : String) (hlen : 1 ≤ s.length) :
    removeMarkF (.text s marks :: rest) 0 (0 + s.length) mty
      = .text s (marks.filter (fun m => m.ty != mty)) :: rest := by
  have h1 : ¬(0 + s.length ≤ 0) := by omega
  have h2 : ¬((PMNode.text s marks).nodeSize ≤ 0) := by
    simp only [PMNode.nodeSize]
    omega
  simp only [removeMarkF, if_neg h1, if_neg h2, removeMarkN]
  have e0 : (0 : Nat) - (PMNode.text s marks).nodeSize = 0 := by omega
  have e1 : 0 + s.length - (PMNode.text s marks).nodeSize = 0 := by
    simp only [PMNode.nodeSize]
    omega
  rw [e0, e1, removeMarkF_zero]
  have hmin : min (0 + s.length) s.length = s.length := by omega
  rw [hmin]
  have hpre : (String.mk (s.data.take 0)).length = 0 := rfl
  have hmid : String.mk ((s.data.drop 0).take (s.length - 0)) = s := by
    show String.mk ((s.data.drop 0).take s.data.length) = s
    rw [List.drop_zero, List.take_length]
  have hpost : (String.mk (s.data.drop s.length)).length = 0 := by
    show (s.data.drop s.data.length).length = 0
    simp
  rw [if_pos hpre, hmid, if_pos hpost]
  have hmidlen : ¬(s.length = 0) := by omega
  rw [if_neg hmidlen]
  simp

/-- Deleting exactly one leading text node removes it and touches nothing
else. -/
theorem deleteF_whole_text (s : String) (marks : List MarkData)
    (rest : List PMNode) (hlen : 1 ≤ s.length) :
    deleteF (.text s marks :: rest) 0 (0 + s.length) = rest := by
  have h1 : ¬(0 + s.length ≤ 0) := by omega
  have h2 : ¬((PMNode.text s marks).nodeSize ≤ 0) := by
    simp only [PMNode.nodeSize]
    omega
  simp only [deleteF, if_neg h1, if_neg h2, deleteN]
  have e0 : (0 : Nat) - (PMNode.text s marks).nodeSize = 0 := by omega
  have e1 : 0 + s.length - (PMNode.text s marks).nodeSize = 0 := by
    simp only [PMNode.nodeSize]
    omega
  rw [e0, e1, deleteF_zero]
  have hkept : (String.mk (s.data.take 0 ++ s.data.drop (0 + s.length))).length = 0 := by
    show (s.data.take 0 ++ s.data.drop (0 + s.data.length)).length = 0
    simp
  rw [if_pos hkept]
  simp

mutual

/-- Reverse-order application of the operations collected from one node
realises the per-node accept transformation, leaving following siblings
untouched. -/
theorem acceptApplyN (id : String) :
    ∀ (c : PMNode), wfSugN id c = true → ∀ (rest : List PMNode),
      applyOpsF (collectAcceptN id c 0).reverse (c :: rest) = acceptSpecN id c ++ rest
  | .text s marks, hwf, rest => by
    have hwf2 := hwf
    simp only [wfSugN, Bool.and_eq_true, decide_eq_true_eq] at hwf2
    have hchar := sugMarks_char id [SugOp.removeMarkOfType 0 s.length "suggestionInsert"]
      [SugOp.deleteSpan 0 s.length] marks hwf2.2
    show applyOpsF (collectAcceptN id (.text s marks) 0).reverse _ = _
    simp only [collectAcceptN]
    rw [hchar]
    simp only [acceptSpecN, acceptTextSpec]
    by_cases hins : marks.any (fun m => markHasSuggestionId m id && m.ty == "suggestionInsert")
    · rw [if_pos hins, if_pos hins, List.reverse_singleton]
      show applySugOpF (PMNode.text s marks :: rest)
        (SugOp.removeMarkOfType 0 s.length "suggestionInsert") = _
      simp only [applySugOpF]
      rw [removeMarkF_whole_text s marks rest "suggestionInsert" hwf2.1]
      rfl
    · rw [if_neg hins, if_neg hins]
      by_cases hdel : marks.any (fun m => markHasSuggestionId m id && m.ty == "suggestionDelete")
      · rw [if_pos hdel, if_pos hdel, List.reverse_singleton]
        show applySugOpF (PMNode.text s marks :: rest) (SugOp.deleteSpan 0 s.length) = _
        simp only [applySugOpF]
        rw [deleteF_whole_text s marks rest hwf2.1]
        rfl
      · rw [if_neg hdel, if_neg hdel]
        rfl
  | .block ty a cs, hwf, rest => by
    have hwfcs : wfSugF id cs = true := hwf
    show applyOpsF (collectAcceptF id cs (0 + 1)).reverse (.block ty a cs :: rest) = _
    rw [collectAcceptF_shift id cs (0 + 1)]
    have h01 : (0 : Nat) + 1 = 1 := rfl
    rw [h01, shiftOps_reverse]
    rw [applyOpsF_into_block ((collectAcceptF id cs 0).reverse) ty a cs rest
      (fun op hop => ((collectAcceptF_bounds id cs hwfcs 0 op (List.mem_reverse.mp hop)).2).1)
      (by
        have hasc := collectAcceptF_asc id cs hwfcs 0
        exact (List.chain'_reverse).mpr (by
          simpa [Function.flip_def] using hasc))
      (by
        intro op0 hop0
        have hmem := List.mem_of_mem_head? hop0
        have hb := collectAcceptF_bounds id cs hwfcs 0 op0 (List.mem_reverse.mp hmem)
        omega)]
    rw [acceptApplyF id cs hwfcs]
    rfl

/-- Fragment version: reverse-order application of all collected
operations realises the per-node accept map. -/
theorem acceptApplyF (id : String) :
    ∀ (cs : List PMNode), wfSugF id cs = true →
      applyOpsF (collectAcceptF id cs 0).reverse cs = acceptSpecF id cs
  | [], _ => rfl
  | c :: rest, hwf => by
    simp only [wfSugF, Bool.and_eq_true] at hwf
    show applyOpsF (collectAcceptN id c 0 ++ collectAcceptF id rest (0 + c.nodeSize)).reverse
      (c :: rest) = _
    rw [collectAcceptF_shift id rest (0 + c.nodeSize)]
    have h0 : (0 : Nat) + c.nodeSize = c.nodeSize := by omega
    rw [h0, List.reverse_append, shiftOps_reverse, applyOpsF_append,
      applyOpsF_shift ((collectAcceptF id rest 0).reverse) c rest,
      acceptApplyF id rest hwf.2,
      acceptApplyN id c hwf.1 (acceptSpecF id rest)]
    rfl

end

/-- `acceptSuggestion` realises the per-node accept map on well-formed
documents. -/
theorem acceptSuggestion_spec (doc : PMNode) (id : String)
    (hwf : wfSugDoc id doc = true) :
    acceptSuggestion doc id = acceptSpecDoc id doc := by
  cases doc with
  | text s m => rfl
  | block ty a cs =>
    show ((collectAcceptF id cs 0).reverse).foldl applySugOp (.block ty a cs)
      = .block ty a (acceptSpecF id cs)
    rw [foldl_applySugOp_block]
    rw [acceptApplyF id cs hwf]
mutual

/-- Collected reject operations at base `b` are the base-0 operations
shifted by `b`. -/
theorem collectRejectN_shift (id : String) :
    ∀ (c : PMNode) (b : Nat), collectRejectN id c b = shiftOps b (collectRejectN id c 0)
  | .text s marks, b => by
    simp only [collectRejectN]
    induction marks with
    | nil => rfl
    | cons mk2 rest ih =>
      rw [List.flatMap_cons, List.flatMap_cons, shiftOps_append, ← ih]
      congr 1
      by_cases h1 : markHasSuggestionId mk2 id
      · by_cases h2 : mk2.ty == "suggestionInsert"
        · simp [h1, h2, shiftOps, SugOp.shift]
        · by_cases h3 : mk2.ty == "suggestionDelete"
          · simp [h1, h2, h3, shiftOps, SugOp.shift]
          · simp [h1, h2, h3, shiftOps]
      · simp [h1, shiftOps]
  | .block ty a cs, b => by
    show collectRejectF id cs (b + 1) = shiftOps b (collectRejectF id cs (0 + 1))
    rw [collectRejectF_shift id cs (b + 1), collectRejectF_shift id cs (0 + 1),
      shiftOps_shiftOps]
    have : 0 + 1 + b = b + 1 := by omega
    rw [this]

/-- Fragment version of the shift normalization for reject. -/
theorem collectRejectF_shift (id : String) :
    ∀ (cs : List PMNode) (b : Nat), collectRejectF id cs b = shiftOps b (collectRejectF id cs 0)
  | [], b => rfl
  | c :: rest, b => by
    show collectRejectN id c b ++ collectRejectF id rest (b + c.nodeSize)
      = shiftOps b (collectRejectN id c 0 ++ collectRejectF id rest (0 + c.nodeSize))
    rw [shiftOps_append, collectRejectN_shift id c b,
      collectRejectF_shift id rest (b + c.nodeSize),
      collectRejectF_shift id rest (0 + c.nodeSize), shiftOps_shiftOps]
    have : 0 + c.nodeSize + b = b + c.nodeSize := by omega
    rw [this]

end

mutual

/-- Bounds of the collected reject operations. -/
theorem collectRejectN_bounds (id : String) :
    ∀ (c : PMNode), wfSugN id c = true → ∀ (b : Nat), ∀ op ∈ collectRejectN id c b,
      b ≤ opPos op ∧ 1 ≤ opSize op ∧ opPos op + opSize op ≤ b + c.nodeSize
  | .text s marks, hwf, b, op, hop => by
    simp only [wfSugN, Bool.and_eq_true, decide_eq_true_eq] at hwf
    simp only [collectRejectN, List.mem_flatMap] at hop
    obtain ⟨mark, _, hopin⟩ := hop
    by_cases h1 : markHasSuggestionId mark id
    · by_cases h2 : mark.ty == "suggestionInsert"
      · simp only [h1, h2, if_true, List.mem_singleton] at hopin
        subst hopin
        simp only [opPos, opSize, PMNode.nodeSize]
        omega
      · by_cases h3 : mark.ty == "suggestionDelete"
        · simp [h1, h2, h3] at hopin
          subst hopin
          simp only [opPos, opSize, PMNode.nodeSize]
          omega
        · simp [h1, h2, h3] at hopin
    · simp [h1] at hopin
  | .block ty a cs, hwf, b, op, hop => by
    have hwf2 : wfSugF id cs = true := hwf
    have := collectRejectF_bounds id cs hwf2 (b + 1) op hop
    simp only [PMNode.nodeSize]
    omega

/-- Fragment version of the reject bounds. -/
theorem collectRejectF_bounds (id : String) :
    ∀ (cs : List PMNode), wfSugF id cs = true → ∀ (b : Nat), ∀ op ∈ collectRejectF id cs b,
      b ≤ opPos op ∧ 1 ≤ opSize op ∧ opPos op + opSize op ≤ b + PMNode.sizeF cs
  | [], _, b, op, hop => by simp [collectRejectF] at hop
  | c :: rest, hwf, b, op, hop => by
    simp only [wfSugF, Bool.and_eq_true] at hwf
    simp only [collectRejectF, List.mem_append] at hop
    rcases hop with hop | hop
    · have := collectRejectN_bounds id c hwf.1 b op hop
      simp only [PMNode.sizeF]
      omega
    · have := collectRejectF_bounds id rest hwf.2 (b + c.nodeSize) op hop
      simp only [PMNode.sizeF]
      omega

end

mutual

/-- The collected reject operations are in ascending span order. -/
theorem collectRejectN_asc (id : String) :
    ∀ (c : PMNode), wfSugN id c = true → ∀ (b : Nat),
      List.Chain' (fun o1 o2 => opPos o1 + opSize o1 ≤ opPos o2) (collectRejectN id c b)
  | .text s marks, hwf, b => by
    simp only [wfSugN, Bool.and_eq_true, decide_eq_true_eq] at hwf
    simp only [collectRejectN]
    rw [sugMarks_char id _ _ marks hwf.2]
    by_cases hins : marks.any (fun m => markHasSuggestionId m id && m.ty == "suggestionInsert")
    · simp [hins]
    · by_cases hdel : marks.any (fun m => markHasSuggestionId m id && m.ty == "suggestionDelete")
      · simp [hins, hdel]
      · simp [hins, hdel]
  | .block ty a cs, hwf, b => by
    have hwf2 : wfSugF id cs = true := hwf
    exact collectRejectF_asc id cs hwf2 (b + 1)

/-- Fragment version of the reject ordering. -/
theorem collectRejectF_asc (id : String) :
    ∀ (cs : List PMNode), wfSugF id cs = true → ∀ (b : Nat),
      List.Chain' (fun o1 o2 => opPos o1 + opSize o1 ≤ opPos o2) (collectRejectF id cs b)
  | [], _, b => List.chain'_nil
  | c :: rest, hwf, b => by
    simp only [wfSugF, Bool.and_eq_true] at hwf
    simp only [collectRejectF]
    rw [List.chain'_append]
    refine ⟨collectRejectN_asc id c hwf.1 b, collectRejectF_asc id rest hwf.2 (b + c.nodeSize), ?_⟩
    intro x hx y hy
    have hxm := List.mem_of_mem_getLast? hx
    have hym := List.mem_of_mem_head? hy
    have hbx := collectRejectN_bounds id c hwf.1 b x hxm
    have hby := collectRejectF_bounds id rest hwf.2 (b + c.nodeSize) y hym
    omega

end

mutual

/-- Reverse-order application of the reject operations collected from one
node realises the per-node reject transformation. -/
theorem rejectApplyN (id : String) :
    ∀ (c : PMNode), wfSugN id c = true → ∀ (rest : List PMNode),
      applyOpsF (collectRejectN id c 0).reverse (c :: rest) = rejectSpecN id c ++ rest
  | .text s marks, hwf, rest => by
    have hwf2 := hwf
    simp only [wfSugN, Bool.and_eq_true, decide_eq_true_eq] at hwf2
    have hchar := sugMarks_char id [SugOp.deleteSpan 0 s.length]
      [SugOp.removeMarkOfType 0 s.length "suggestionDelete"] marks hwf2.2
    show applyOpsF (collectRejectN id (.text s marks) 0).reverse _ = _
    simp only [collectRejectN]
    rw [hchar]
    simp only [rejectSpecN, rejectTextSpec]
    by_cases hins : marks.any (fun m => markHasSuggestionId m id && m.ty == "suggestionInsert")
    · rw [if_pos hins, if_pos hins, List.reverse_singleton]
      show applySugOpF (PMNode.text s marks :: rest) (SugOp.deleteSpan 0 s.length) = _
      simp only [applySugOpF]
      rw [deleteF_whole_text s marks rest hwf2.1]
      rfl
    · rw [if_neg hins, if_neg hins]
      by_cases hdel : marks.any (fun m => markHasSuggestionId m id && m.ty == "suggestionDelete")
      · rw [if_pos hdel, if_pos hdel, List.reverse_singleton]
        show applySugOpF (PMNode.text s marks :: rest)
          (SugOp.removeMarkOfType 0 s.length "suggestionDelete") = _
        simp only [applySugOpF]
        rw [removeMarkF_whole_text s marks rest "suggestionDelete" hwf2.1]
        rfl
      · rw [if_neg hdel, if_neg hdel]
        rfl
  | .block ty a cs, hwf, rest => by
    have hwfcs : wfSugF id cs = true := hwf
    show applyOpsF (collectRejectF id cs (0 + 1)).reverse (.block ty a cs :: rest) = _
    rw [collectRejectF_shift id cs (0 + 1)]
    have h01 : (0 : Nat) + 1 = 1 := rfl
    rw [h01, shiftOps_reverse]
    rw [applyOpsF_into_block ((collectRejectF id cs 0).reverse) ty a cs rest
      (fun op hop => ((collectRejectF_bounds id cs hwfcs 0 op (List.mem_reverse.mp hop)).2).1)
      (by
        have hasc := collectRejectF_asc id cs hwfcs 0
        exact (List.chain'_reverse).mpr (by
          simpa [Function.flip_def] using hasc))
      (by
        intro op0 hop0
        have hmem := List.mem_of_mem_head? hop0
        have hb := collectRejectF_bounds id cs hwfcs 0 op0 (List.mem_reverse.mp hmem)
        omega)]
    rw [rejectApplyF id cs hwfcs]
    rfl

/-- Fragment version of the reject application. -/
theorem rejectApplyF (id : String) :
    ∀ (cs : List PMNode), wfSugF id cs = true →
      applyOpsF (collectRejectF id cs 0).reverse cs = rejectSpecF id cs
  | [], _ => rfl
  | c :: rest, hwf => by
    simp only [wfSugF, Bool.and_eq_true] at hwf
    show applyOpsF (collectRejectN id c 0 ++ collectRejectF id rest (0 + c.nodeSize)).reverse
      (c :: rest) = _
    rw [collectRejectF_shift id rest (0 + c.nodeSize)]
    have h0 : (0 : Nat) + c.nodeSize = c.nodeSize := by omega
    rw [h0, List.reverse_append, shiftOps_reverse, applyOpsF_append,
      applyOpsF_shift ((collectRejectF id rest 0).reverse) c rest,
      rejectApplyF id rest hwf.2,
      rejectApplyN id c hwf.1 (rejectSpecF id rest)]
    rfl

end

/-- `rejectSuggestion` realises the per-node reject map on well-formed
documents. -/
theorem rejectSuggestion_spec (doc : PMNode) (id : String)
    (hwf : wfSugDoc id doc = true) :
    rejectSuggestion doc id = rejectSpecDoc id doc := by
  cases doc with
  | text s m => rfl
  | block ty a cs =>
    show ((collectRejectF id cs 0).reverse).foldl applySugOp (.block ty a cs)
      = .block ty a (rejectSpecF id cs)
    rw [foldl_applySugOp_block]
    rw [rejectApplyF id cs hwf]

/-- A document carrying one pending suggestion `s1`: the insertion "dog"
marked `suggestionInsert` and the deletion "cat" marked
`suggestionDelete`. -/
def docSug : PMNode :=
  .block "doc" [] [.block "paragraph" [] [
    .text "The " [],
    .text "dog" [MarkData.mk "suggestionInsert" [("suggestionId", JVal.str "s1")]],
    .text "cat" [MarkData.mk "suggestionDelete" [("suggestionId", JVal.str "s1")]],
    .text " sat." []]]

/-- C2: For every pending text suggestion id on a well-formed document,
`acceptSuggestion` strips the `suggestionInsert` mark keeping the marked
text and deletes every span carrying the `suggestionDelete` mark with
that id, and `rejectSuggestion` deletes every span carrying the
`suggestionInsert` mark with that id and strips the `suggestionDelete`
mark keeping its text: both equal the per-text-node maps `acceptSpecDoc`
and `rejectSpecDoc` built from exactly that case table. -/
theorem C2_accept_reject_inline_suggestions (doc : PMNode) (id : String)
    (hwf : wfSugDoc id doc = true) :
    acceptSuggestion doc id = acceptSpecDoc id doc ∧
    rejectSuggestion doc id = rejectSpecDoc id doc :=
  ⟨acceptSuggestion_spec doc id hwf, rejectSuggestion_spec doc id hwf⟩

/-- Concrete instance of C2 on `docSug`: accepting keeps "dog" (mark
stripped) and removes "cat"; rejecting removes "dog" and keeps "cat"
(mark stripped). -/
theorem C2_witness :
    (wfSugDoc "s1" docSug = true ∧
      (acceptSuggestion docSug "s1" = acceptSpecDoc "s1" docSug ∧
       rejectSuggestion docSug "s1" = rejectSpecDoc "s1" docSug)) ∧
    acceptSpecDoc "s1" docSug = .block "doc" [] [.block "paragraph" [] [
      .text "The " [], .text "dog" [], .text " sat." []]] ∧
    rejectSpecDoc "s1" docSug = .block "doc" [] [.block "paragraph" [] [
      .text "The " [], .text "cat" [], .text " sat." []]] :=
  ⟨⟨by decide, C2_accept_reject_inline_suggestions docSug "s1" (by decide)⟩,
    rfl, rfl⟩

end Spec2Proof
